import Mathlib

/-!
# frouter — verification of the spec against the source

Shallow embedding of the core logic of the `frouter` terminal dashboard:

* `src/lib/utils.ts` — rolling metrics cache (`applyModelPingResult`,
  `recomputeMetricsFromPings`, `ensureMetrics`, `getAvg`, `getUptime`,
  `assertModelMetricsInvariant`), string width (`visLen`).
* `src/lib/ping.ts` — concurrency limiter (`pooled`), single-probe settlement
  (`ping`/`settle`), backoff filter and per-result update
  (`pingAllOnce`/`runPing`).
* the TUI module — raw input dispatcher (`onData`/`flushEsc`/
  `splitEscapeSequences`) and ANSI-aware truncation (`truncAnsi`,
  `fullWidthLine`).

JavaScript numbers produced by the prober are finite integers
(`Math.round` of finite floats), so latencies are modelled as `Int`;
averages and uptime rounding are computed in `ℚ`, with `Option ℚ` standing
for a JS number that may be `Infinity` (`none` = `Infinity`).
Strings are modelled as `String` (codes) or `List Char` (terminal byte
streams); all characters appearing in the terminal-layer statements are
BMP code points, where one UTF-16 code unit is one code point.
-/

namespace FRouter

/-- A ping outcome `{code, ms, detail?}` as produced by the prober
(`src/lib/ping.ts`): `code` is an HTTP status string, `"000"` or `"ERR"`;
`ms` is `Math.round` of a finite float, hence a (finite) integer. -/
structure Ping where
  code : String
  ms : Int
  deriving Repr, DecidableEq

/-- The rolling metrics snapshot `{version, count, okCount, sumOkMs}`
(`src/lib/utils.ts`, `ModelMetrics`). -/
structure Metrics where
  version : Int
  count : Int
  okCount : Int
  sumOkMs : Int
  deriving Repr, DecidableEq

/-- `METRICS_CACHE_VERSION` from `src/lib/utils.ts`. -/
def METRICS_CACHE_VERSION : Int := 1

/-- `emptyMetrics()` from `src/lib/utils.ts`. -/
def emptyMetrics : Metrics :=
  { version := METRICS_CACHE_VERSION, count := 0, okCount := 0, sumOkMs := 0 }

/-- `isFiniteMs(value)`: `typeof value === "number" && Number.isFinite(value)`.
In this embedding the `ms` field is an `Int`, i.e. always a finite number,
so the check holds. -/
def isFiniteMs (_ : Int) : Bool := true

/-- `isOkPing(ping)` from `src/lib/utils.ts`:
`ping?.code === "200" && isFiniteMs(ping?.ms)`. -/
def isOkPing (p : Ping) : Bool := p.code == "200" && isFiniteMs p.ms

/-- `recomputeMetricsFromPings(pings)` from `src/lib/utils.ts`: the
from-scratch oracle, a fold over the retained history. -/
def recomputeMetricsFromPings (pings : List Ping) : Metrics :=
  pings.foldl
    (fun m p =>
      { m with
        count := m.count + 1
        okCount := if isOkPing p then m.okCount + 1 else m.okCount
        sumOkMs := if isOkPing p then m.sumOkMs + p.ms else m.sumOkMs })
    emptyMetrics

/-- A probed model's mutable history state: the `pings` array and the
optional `_metrics` snapshot. -/
structure PModel where
  pings : List Ping
  metrics : Option Metrics
  deriving Repr, DecidableEq

/-- The per-snapshot part of `hasValidMetrics(model)` from
`src/lib/utils.ts`.  `Number.isInteger` and `isFiniteMs` hold by the `Int`
embedding of the fields. -/
def metricsValid (t : Metrics) : Bool :=
  t.version == METRICS_CACHE_VERSION &&
    decide (0 ≤ t.count) && decide (0 ≤ t.okCount) && decide (t.okCount ≤ t.count)

/-- `hasValidMetrics(model)` from `src/lib/utils.ts`. -/
def hasValidMetrics (m : PModel) : Bool :=
  match m.metrics with
  | some t => metricsValid t
  | none => false

/-- The value returned by `ensureMetrics(model)` from `src/lib/utils.ts`;
`enabled` mirrors the module constant `METRICS_CACHE_ENABLED`
(`process.env.FROUTER_METRICS_CACHE !== "0"`). -/
def ensureMetricsVal (enabled : Bool) (m : PModel) : Option Metrics :=
  if enabled then
    match m.metrics with
    | some t => if metricsValid t then some t else some (recomputeMetricsFromPings m.pings)
    | none => some (recomputeMetricsFromPings m.pings)
  else none

/-- `ensureMetrics` also stores the (re)built snapshot on the model (when
the cache is enabled); modelled as the updated model. -/
def ensureMetrics (enabled : Bool) (m : PModel) : PModel :=
  if enabled then { m with metrics := ensureMetricsVal enabled m } else m

/-- The append branch of `applyModelPingResult`: `metrics.count++`, and on
an ok ping `okCount++` and `sumOkMs += ms`. -/
def incMetrics (r : Ping) (t : Metrics) : Metrics :=
  { t with
    count := t.count + 1
    okCount := if isOkPing r then t.okCount + 1 else t.okCount
    sumOkMs := if isOkPing r then t.sumOkMs + r.ms else t.sumOkMs }

/-- The eviction branch of `applyModelPingResult`: `count` decremented
clamped at zero; if the removed entry was ok, `okCount` decremented
clamped at zero and its latency subtracted. -/
def decMetrics (removed : Ping) (t : Metrics) : Metrics :=
  { t with
    count := max 0 (t.count - 1)
    okCount := if isOkPing removed then max 0 (t.okCount - 1) else t.okCount
    sumOkMs := if isOkPing removed then t.sumOkMs - removed.ms else t.sumOkMs }

/-- The `while (model.pings.length > maxPings)` eviction loop of
`applyModelPingResult`: shift the oldest ping, folding the removal into
the snapshot when one is present. -/
def evictLoop (maxPings : Nat) : List Ping → Option Metrics → List Ping × Option Metrics
  | [], mt => ([], mt)
  | removed :: rest, mt =>
    if maxPings < (removed :: rest).length then
      evictLoop maxPings rest (mt.map (decMetrics removed))
    else (removed :: rest, mt)

/-- `applyModelPingResult(model, pingResult, maxPings)` from
`src/lib/utils.ts`: ensure the cache, append the result (updating the
snapshot when present), then evict down to `maxPings`.  When the cache is
disabled `ensureMetrics` returns `null` and `model._metrics` is left
untouched. -/
def applyModelPingResult (enabled : Bool) (m : PModel) (r : Ping) (maxPings : Nat) : PModel :=
  let mt := ensureMetricsVal enabled m
  let st := evictLoop maxPings (m.pings ++ [r]) (mt.map (incMetrics r))
  { pings := st.1, metrics := if enabled then st.2 else m.metrics }

/-- The result shape of `assertModelMetricsInvariant`. -/
structure InvariantCheck where
  ok : Bool
  reason : Option String
  deriving Repr, DecidableEq

/-- `assertModelMetricsInvariant(model)` from `src/lib/utils.ts`: compare
the ensured snapshot against the rescan oracle field by field.  (The
source interpolates the mismatching values into `reason`; here only the
leading tag of each reason string is kept.) -/
def assertModelMetricsInvariant (enabled : Bool) (m : PModel) : InvariantCheck :=
  if !enabled then ⟨true, none⟩
  else
    match ensureMetricsVal enabled m with
    | none => ⟨false, some "metrics missing"⟩
    | some t =>
      let oracle := recomputeMetricsFromPings m.pings
      if t.count ≠ oracle.count then ⟨false, some "count mismatch"⟩
      else if t.okCount ≠ oracle.okCount then ⟨false, some "okCount mismatch"⟩
      else if t.sumOkMs ≠ oracle.sumOkMs then ⟨false, some "sumOkMs mismatch"⟩
      else ⟨true, none⟩

/-- `getAvg(model)` from `src/lib/utils.ts`.  `none` stands for the JS
value `Infinity` (no HTTP-200 pings yet). -/
def getAvg (enabled : Bool) (m : PModel) : Option ℚ :=
  match ensureMetricsVal enabled m with
  | some t =>
    if t.okCount = 0 then none else some ((t.sumOkMs : ℚ) / (t.okCount : ℚ))
  | none =>
    let ok := m.pings.filter (fun p => p.code == "200")
    if ok.length = 0 then none
    else some (((ok.map Ping.ms).sum : ℚ) / (ok.length : ℚ))

/-- `getUptime(model)` from `src/lib/utils.ts`:
`Math.round((okCount / count) * 100)`, `0` with no pings. -/
def getUptime (enabled : Bool) (m : PModel) : ℤ :=
  match ensureMetricsVal enabled m with
  | some t =>
    if t.count = 0 then 0 else round (((t.okCount : ℚ) / (t.count : ℚ)) * 100)
  | none =>
    if m.pings.length = 0 then 0
    else
      round ((((m.pings.filter (fun p => p.code == "200")).length : ℚ) /
        (m.pings.length : ℚ)) * 100)

/-! ## Characterization of the rescan oracle -/

theorem recompute_foldl_count (l : List Ping) (init : Metrics) :
    (l.foldl
      (fun m p =>
        { m with
          count := m.count + 1
          okCount := if isOkPing p then m.okCount + 1 else m.okCount
          sumOkMs := if isOkPing p then m.sumOkMs + p.ms else m.sumOkMs })
      init).count = init.count + l.length := by
  induction l generalizing init with
  | nil => simp
  | cons p rest ih =>
    simp only [List.foldl_cons, List.length_cons, ih]
    push_cast
    ring

theorem recompute_foldl_ok (l : List Ping) (init : Metrics) :
    (l.foldl
      (fun m p =>
        { m with
          count := m.count + 1
          okCount := if isOkPing p then m.okCount + 1 else m.okCount
          sumOkMs := if isOkPing p then m.sumOkMs + p.ms else m.sumOkMs })
      init).okCount = init.okCount + (l.filter isOkPing).length := by
  induction l generalizing init with
  | nil => simp
  | cons p rest ih =>
    simp only [List.foldl_cons, ih, List.filter_cons]
    by_cases h : isOkPing p <;> simp [h] <;> ring

theorem recompute_foldl_sum (l : List Ping) (init : Metrics) :
    (l.foldl
      (fun m p =>
        { m with
          count := m.count + 1
          okCount := if isOkPing p then m.okCount + 1 else m.okCount
          sumOkMs := if isOkPing p then m.sumOkMs + p.ms else m.sumOkMs })
      init).sumOkMs = init.sumOkMs + ((l.filter isOkPing).map Ping.ms).sum := by
  induction l generalizing init with
  | nil => simp
  | cons p rest ih =>
    simp only [List.foldl_cons, ih, List.filter_cons]
    by_cases h : isOkPing p <;> simp [h] <;> ring

theorem recompute_foldl_version (l : List Ping) (init : Metrics) :
    (l.foldl
      (fun m p =>
        { m with
          count := m.count + 1
          okCount := if isOkPing p then m.okCount + 1 else m.okCount
          sumOkMs := if isOkPing p then m.sumOkMs + p.ms else m.sumOkMs })
      init).version = init.version := by
  induction l generalizing init with
  | nil => simp
  | cons p rest ih => simp only [List.foldl_cons, ih]

theorem recompute_count (l : List Ping) :
    (recomputeMetricsFromPings l).count = l.length := by
  simpa [recomputeMetricsFromPings, emptyMetrics] using recompute_foldl_count l emptyMetrics

theorem recompute_ok (l : List Ping) :
    (recomputeMetricsFromPings l).okCount = (l.filter isOkPing).length := by
  simpa [recomputeMetricsFromPings, emptyMetrics] using recompute_foldl_ok l emptyMetrics

theorem recompute_sum (l : List Ping) :
    (recomputeMetricsFromPings l).sumOkMs = ((l.filter isOkPing).map Ping.ms).sum := by
  simpa [recomputeMetricsFromPings, emptyMetrics] using recompute_foldl_sum l emptyMetrics

theorem recompute_version (l : List Ping) :
    (recomputeMetricsFromPings l).version = METRICS_CACHE_VERSION := by
  simpa [recomputeMetricsFromPings, emptyMetrics] using recompute_foldl_version l emptyMetrics

/-- The oracle snapshot always passes `hasValidMetrics`' field checks. -/
theorem recompute_valid (l : List Ping) : metricsValid (recomputeMetricsFromPings l) = true := by
  simp [metricsValid, recompute_version, recompute_count, recompute_ok]
  exact_mod_cast List.length_filter_le _ _

/-! ## The cache/oracle invariant (C1) -/

theorem Metrics.ext {a b : Metrics} (h1 : a.version = b.version) (h2 : a.count = b.count)
    (h3 : a.okCount = b.okCount) (h4 : a.sumOkMs = b.sumOkMs) : a = b := by
  cases a; cases b; simp_all

/-- Folding an eviction into the oracle of `x :: rest` yields the oracle of
`rest`: the `Math.max(0, ...)` clamps never fire on consistent snapshots. -/
theorem dec_oracle (x : Ping) (rest : List Ping) :
    decMetrics x (recomputeMetricsFromPings (x :: rest)) = recomputeMetricsFromPings rest := by
  apply Metrics.ext
  · simp [decMetrics, recompute_version]
  · simp only [decMetrics, recompute_count, List.length_cons]
    push_cast
    omega
  · simp only [decMetrics, recompute_ok, List.filter_cons]
    by_cases h : isOkPing x <;> simp [h] <;> push_cast <;> omega
  · simp only [decMetrics, recompute_sum, List.filter_cons]
    by_cases h : isOkPing x <;> simp [h] <;> ring

/-- Folding an append into the oracle of `l` yields the oracle of `l ++ [r]`. -/
theorem inc_oracle (r : Ping) (l : List Ping) :
    incMetrics r (recomputeMetricsFromPings l) = recomputeMetricsFromPings (l ++ [r]) := by
  apply Metrics.ext
  · simp [incMetrics, recompute_version]
  · simp only [incMetrics, recompute_count, List.length_append, List.length_cons,
      List.length_nil]
    push_cast
    ring
  · simp only [incMetrics, recompute_ok, List.filter_append, List.length_append,
      List.filter_cons, List.filter_nil]
    by_cases h : isOkPing r <;> simp [h]
  · simp only [incMetrics, recompute_sum, List.filter_append, List.map_append,
      List.sum_append, List.filter_cons, List.filter_nil]
    by_cases h : isOkPing r <;> simp [h]

/-- The eviction loop keeps the snapshot equal to the oracle of the retained
history. -/
theorem evictLoop_oracle (maxPings : Nat) :
    ∀ pings : List Ping,
      ∃ kept, evictLoop maxPings pings (some (recomputeMetricsFromPings pings)) =
        (kept, some (recomputeMetricsFromPings kept))
  | [] => ⟨[], rfl⟩
  | removed :: rest => by
    rw [evictLoop]
    by_cases h : maxPings < (removed :: rest).length
    · rw [if_pos h, Option.map_some', dec_oracle]
      exact evictLoop_oracle maxPings rest
    · rw [if_neg h]
      exact ⟨removed :: rest, rfl⟩

/-- A model whose snapshot, when it would be accepted by `hasValidMetrics`,
agrees with the rescan oracle.  Every model the program builds (fresh, or
maintained by `applyModelPingResult`) satisfies this. -/
def CacheConsistent (m : PModel) : Prop :=
  hasValidMetrics m = true → m.metrics = some (recomputeMetricsFromPings m.pings)

instance (m : PModel) : Decidable (CacheConsistent m) := by
  unfold CacheConsistent; infer_instance

theorem ensure_oracle {m : PModel} (h : CacheConsistent m) :
    ensureMetricsVal true m = some (recomputeMetricsFromPings m.pings) := by
  unfold ensureMetricsVal
  cases hm : m.metrics with
  | none => simp
  | some t =>
    by_cases hv : metricsValid t
    · have ht : some t = some (recomputeMetricsFromPings m.pings) := by
        rw [← hm]
        exact h (by unfold hasValidMetrics; rw [hm]; exact hv)
      simp [hv, Option.some_inj.mp ht]
    · simp [hv]

/-- After `applyModelPingResult` (cache enabled) the snapshot is exactly the
rescan oracle of the retained pings. -/
theorem applyModelPingResult_eq (enabled : Bool) (m : PModel) (r : Ping) (cap : Nat) :
    applyModelPingResult enabled m r cap =
      { pings := (evictLoop cap (m.pings ++ [r]) ((ensureMetricsVal enabled m).map (incMetrics r))).1
        metrics :=
          if enabled then
            (evictLoop cap (m.pings ++ [r]) ((ensureMetricsVal enabled m).map (incMetrics r))).2
          else m.metrics } := rfl

theorem apply_metrics_oracle {m : PModel} (r : Ping) (cap : Nat) (h : CacheConsistent m) :
    (applyModelPingResult true m r cap).metrics =
      some (recomputeMetricsFromPings (applyModelPingResult true m r cap).pings) := by
  obtain ⟨kept, hk⟩ := evictLoop_oracle cap (m.pings ++ [r])
  rw [applyModelPingResult_eq, ensure_oracle h, Option.map_some', inc_oracle, hk]
  simp

theorem apply_consistent {m : PModel} (r : Ping) (cap : Nat) (h : CacheConsistent m) :
    CacheConsistent (applyModelPingResult true m r cap) := by
  intro _
  exact apply_metrics_oracle r cap h

/-- Applying a sequence of ping results in order (the repeated production
append path). -/
def applyList (enabled : Bool) (cap : Nat) (rs : List Ping) (m : PModel) : PModel :=
  rs.foldl (fun m r => applyModelPingResult enabled m r cap) m

theorem applyList_consistent (cap : Nat) (rs : List Ping) :
    ∀ {m : PModel}, CacheConsistent m → CacheConsistent (applyList true cap rs m) := by
  induction rs with
  | nil => intro m h; exact h
  | cons r rest ih =>
    intro m h
    exact ih (apply_consistent r cap h)

/-- A consistent model passes the source's own on-demand invariant check. -/
theorem assert_ok_of_consistent {m : PModel} (h : CacheConsistent m) :
    (assertModelMetricsInvariant true m).ok = true := by
  unfold assertModelMetricsInvariant
  rw [ensure_oracle h]
  simp

/-- `MAX_PINGS` from `src/lib/ping.ts`: history capacity per model. -/
def MAX_PINGS : Nat := 100

/-- Modelled from the spec: the commit path of the current `runPing` inside
`pingAllOnce` is absent from `src/` (the revision of `src/lib/ping.ts`
present there predates the metrics cache and the epoch guard; its tests use
the `bumpPingEpoch`/`getPingEpoch` functions which that revision does not export).
Per §4.6, "Each completion updates ping history (via the Metrics Cache)":
a committed result is appended through `applyModelPingResult` with the
`MAX_PINGS` cap. -/
def runPingCommit (m : PModel) (r : Ping) : PModel :=
  applyModelPingResult true m r MAX_PINGS

/-- Ping histories produced by successive production commits. -/
def runPingCommitList (rs : List Ping) (m : PModel) : PModel :=
  rs.foldl runPingCommit m

theorem runPingCommitList_eq_applyList (rs : List Ping) (m : PModel) :
    runPingCommitList rs m = applyList true MAX_PINGS rs m := rfl

theorem applyList_append_one (cap : Nat) (pre : List Ping) (r : Ping) (m : PModel) :
    applyList true cap (pre ++ [r]) m =
      applyModelPingResult true (applyList true cap pre m) r cap := by
  simp [applyList, List.foldl_append]

/-! ## `getAvg` / `getUptime` via cache and via fallback scan (C7, C8) -/

/-- `isFiniteMs` holds on every embedded latency, so the ok-ping filter is
exactly the HTTP-200 filter. -/
theorem filter_ok_eq (l : List Ping) :
    l.filter isOkPing = l.filter (fun p => p.code == "200") := by
  apply List.filter_congr
  intro p _
  simp [isOkPing, isFiniteMs]

theorem ensure_fresh (pings : List Ping) :
    ensureMetricsVal true ⟨pings, none⟩ = some (recomputeMetricsFromPings pings) := by
  simp [ensureMetricsVal]

/-- The cached path of `getAvg` on a freshly ensured model computes the
HTTP-200 average of the pings array. -/
theorem getAvg_cached_fresh (pings : List Ping) :
    getAvg true ⟨pings, none⟩ =
      if (pings.filter (fun p => p.code == "200")).length = 0 then none
      else
        some ((((pings.filter (fun p => p.code == "200")).map Ping.ms).sum : ℚ) /
          ((pings.filter (fun p => p.code == "200")).length : ℚ)) := by
  unfold getAvg
  rw [ensure_fresh]
  simp only [recompute_ok, recompute_sum, filter_ok_eq]
  by_cases h : (pings.filter (fun p => p.code == "200")).length = 0
  · simp [h]
  · rw [if_neg (by exact_mod_cast h), if_neg h]
    push_cast
    ring_nf

/-- The fallback path of `getAvg` (cache disabled): the direct scan. -/
theorem getAvg_fallback (pings : List Ping) (mt : Option Metrics) :
    getAvg false ⟨pings, mt⟩ =
      if (pings.filter (fun p => p.code == "200")).length = 0 then none
      else
        some ((((pings.filter (fun p => p.code == "200")).map Ping.ms).sum : ℚ) /
          ((pings.filter (fun p => p.code == "200")).length : ℚ)) := by
  unfold getAvg ensureMetricsVal
  simp

/-- The cached path of `getUptime` on a freshly ensured model computes the
rounded HTTP-200 ratio of the pings array. -/
theorem getUptime_cached_fresh (pings : List Ping) :
    getUptime true ⟨pings, none⟩ =
      if pings.length = 0 then 0
      else
        round ((100 * ((pings.filter (fun p => p.code == "200")).length : ℚ)) /
          (pings.length : ℚ)) := by
  unfold getUptime
  rw [ensure_fresh]
  simp only [recompute_count, recompute_ok, filter_ok_eq]
  by_cases h : pings.length = 0
  · simp [h]
  · rw [if_neg (by exact_mod_cast h), if_neg h]
    congr 1
    push_cast
    ring

/-- The fallback path of `getUptime` (cache disabled): the direct scan. -/
theorem getUptime_fallback (pings : List Ping) (mt : Option Metrics) :
    getUptime false ⟨pings, mt⟩ =
      if pings.length = 0 then 0
      else
        round ((100 * ((pings.filter (fun p => p.code == "200")).length : ℚ)) /
          (pings.length : ℚ)) := by
  unfold getUptime ensureMetricsVal
  by_cases h : pings.length = 0
  · simp [h]
  · simp only [Bool.false_eq_true, if_false, h]
    congr 1
    push_cast
    ring

/-- The worked scenario of spec §8: pings `{200/100, 500/80, 200/300}` at
cap 3. -/
def scenario3 : PModel :=
  applyList true 3 [⟨"200", 100⟩, ⟨"500", 80⟩, ⟨"200", 300⟩] ⟨[], none⟩

/-- The scenario continued: appending `{200/500}` at cap 3 evicts the
oldest entry. -/
def scenario4 : PModel := applyModelPingResult true scenario3 ⟨"200", 500⟩ 3

/-! ## Claim theorems C1, C7, C8 -/

/-- C1: for every (consistent) model and every sequence of ping results
applied with any history cap, after each append — and any resulting ring
evictions — the rolling snapshot `{count, okCount, sumOkMs}` maintained by
`applyModelPingResult` equals the oracle obtained by rescanning the
retained pings with `recomputeMetricsFromPings` (and the source's own
on-demand check `assertModelMetricsInvariant` passes); the same equality
holds for histories produced by the production append path (`runPing`
inside `pingAllOnce`, committing at the `MAX_PINGS` cap). -/
theorem C1_cache_matches_oracle (cap : Nat) (m0 : PModel) (hm : CacheConsistent m0)
    (rs pre : List Ping) (r : Ping) (hpre : (pre ++ [r]) <+: rs) :
    ((applyList true cap (pre ++ [r]) m0).metrics =
        some (recomputeMetricsFromPings (applyList true cap (pre ++ [r]) m0).pings) ∧
      (assertModelMetricsInvariant true (applyList true cap (pre ++ [r]) m0)).ok = true) ∧
    ((runPingCommitList (pre ++ [r]) m0).metrics =
        some (recomputeMetricsFromPings (runPingCommitList (pre ++ [r]) m0).pings) ∧
      (assertModelMetricsInvariant true (runPingCommitList (pre ++ [r]) m0)).ok = true) := by
  have key : ∀ c : Nat,
      (applyList true c (pre ++ [r]) m0).metrics =
          some (recomputeMetricsFromPings (applyList true c (pre ++ [r]) m0).pings) ∧
        (assertModelMetricsInvariant true (applyList true c (pre ++ [r]) m0)).ok = true := by
    intro c
    have hcons := applyList_consistent c pre hm
    rw [applyList_append_one]
    exact ⟨apply_metrics_oracle r c hcons,
      assert_ok_of_consistent (apply_consistent r c hcons)⟩
  exact ⟨key cap, by rw [runPingCommitList_eq_applyList]; exact key MAX_PINGS⟩

theorem C1_cache_matches_oracle_witness :
    CacheConsistent ⟨[], none⟩ ∧
      (([Ping.mk "200" 100] ++ [Ping.mk "500" 80]) <+:
        [Ping.mk "200" 100, Ping.mk "500" 80]) ∧
      (((applyList true 3 ([Ping.mk "200" 100] ++ [Ping.mk "500" 80]) ⟨[], none⟩).metrics =
          some (recomputeMetricsFromPings
            (applyList true 3 ([Ping.mk "200" 100] ++ [Ping.mk "500" 80]) ⟨[], none⟩).pings) ∧
        (assertModelMetricsInvariant true
          (applyList true 3 ([Ping.mk "200" 100] ++ [Ping.mk "500" 80]) ⟨[], none⟩)).ok = true) ∧
      ((runPingCommitList ([Ping.mk "200" 100] ++ [Ping.mk "500" 80]) ⟨[], none⟩).metrics =
          some (recomputeMetricsFromPings
            (runPingCommitList ([Ping.mk "200" 100] ++ [Ping.mk "500" 80]) ⟨[], none⟩).pings) ∧
        (assertModelMetricsInvariant true
          (runPingCommitList ([Ping.mk "200" 100] ++ [Ping.mk "500" 80]) ⟨[], none⟩)).ok = true)) :=
  ⟨by decide, by decide,
    C1_cache_matches_oracle 3 ⟨[], none⟩ (by decide)
      [Ping.mk "200" 100, Ping.mk "500" 80] [Ping.mk "200" 100] (Ping.mk "500" 80) (by decide)⟩

/-- C7: `getAvg` returns `sumOkMs/okCount` over the HTTP-200 pings and
`Infinity` (modelled `none`) when there are none; `getUptime` returns
`round(100*okCount/count)` and `0` when `count` is `0`.  Concretely, for
history `{200/100ms, 500/80ms, 200/300ms}` at cap 3 the average is 200ms
and uptime 67%; appending `{200/500ms}` evicts the oldest entry, giving
average 400ms with uptime still 67%. -/
theorem C7_avg_uptime_formulas :
    (∀ pings : List Ping,
      getAvg true ⟨pings, none⟩ =
        (if (pings.filter (fun p => p.code == "200")).length = 0 then none
         else
          some ((((pings.filter (fun p => p.code == "200")).map Ping.ms).sum : ℚ) /
            ((pings.filter (fun p => p.code == "200")).length : ℚ))) ∧
      getUptime true ⟨pings, none⟩ =
        (if pings.length = 0 then 0
         else
          round ((100 * ((pings.filter (fun p => p.code == "200")).length : ℚ)) /
            (pings.length : ℚ)))) ∧
    scenario3 = ⟨[⟨"200", 100⟩, ⟨"500", 80⟩, ⟨"200", 300⟩], some ⟨1, 3, 2, 400⟩⟩ ∧
    getAvg true scenario3 = some 200 ∧
    getUptime true scenario3 = 67 ∧
    scenario4 = ⟨[⟨"500", 80⟩, ⟨"200", 300⟩, ⟨"200", 500⟩], some ⟨1, 3, 2, 800⟩⟩ ∧
    getAvg true scenario4 = some 400 ∧
    getUptime true scenario4 = 67 := by
  have h3 : scenario3 = ⟨[⟨"200", 100⟩, ⟨"500", 80⟩, ⟨"200", 300⟩], some ⟨1, 3, 2, 400⟩⟩ := by
    decide
  have h4 : scenario4 = ⟨[⟨"500", 80⟩, ⟨"200", 300⟩, ⟨"200", 500⟩], some ⟨1, 3, 2, 800⟩⟩ := by
    decide
  refine ⟨fun pings => ⟨getAvg_cached_fresh pings, getUptime_cached_fresh pings⟩,
    h3, ?_, ?_, h4, ?_, ?_⟩
  · rw [h3]
    simp [getAvg, ensureMetricsVal, metricsValid, METRICS_CACHE_VERSION]
    norm_num
  · rw [h3]
    simp [getUptime, ensureMetricsVal, metricsValid, METRICS_CACHE_VERSION]
    norm_num [round_eq]
  · rw [h4]
    simp [getAvg, ensureMetricsVal, metricsValid, METRICS_CACHE_VERSION]
    norm_num
  · rw [h4]
    simp [getUptime, ensureMetricsVal, metricsValid, METRICS_CACHE_VERSION]
    norm_num [round_eq]

/-- C8: for every fixed pings array, `getAvg` and `getUptime` return the
same values from a freshly built metrics cache (cache enabled,
`ensureMetrics`) as from the direct fallback scan over the pings array
(cache disabled or missing): the cached path refines the O(history) scan
path. -/
theorem C8_cached_refines_scan (pings : List Ping) :
    getAvg true ⟨pings, none⟩ = getAvg false ⟨pings, none⟩ ∧
    getUptime true ⟨pings, none⟩ = getUptime false ⟨pings, none⟩ := by
  rw [getAvg_cached_fresh, getAvg_fallback, getUptime_cached_fresh, getUptime_fallback]
  exact ⟨rfl, rfl⟩

/-! ## Progressive backoff (`src/lib/ping.ts`, C3 and C4)

`pingAllOnce` filters out an entity (no probe attempt, state untouched)
when its consecutive-failure counter has reached `BACKOFF_THRESHOLD` and
the current round counter is still below `_skipUntilRound`; `runPing`
resets the counter on a `200`/`401` result, increments it otherwise, and
when it is at or past the threshold records
`_skipUntilRound = _roundCounter + min(32, 2 ** (fails - threshold))`. -/

/-- `BACKOFF_THRESHOLD` from `src/lib/ping.ts` (Phase 2F). -/
def BACKOFF_THRESHOLD : Nat := 3

/-- Per-entity backoff fields `_consecutiveFails` / `_skipUntilRound`
(`|| 0` defaults are the `Nat` zero). -/
structure BackoffState where
  consecutiveFails : Nat
  skipUntilRound : Nat
  deriving Repr, DecidableEq

/-- The backoff part of the `toPing` filter in `pingAllOnce`: the entity is
dropped from the round exactly when `fails >= BACKOFF_THRESHOLD` and
`_roundCounter < skipUntil`. -/
def backoffSkips (roundCounter : Nat) (s : BackoffState) : Bool :=
  decide (BACKOFF_THRESHOLD ≤ s.consecutiveFails) && decide (roundCounter < s.skipUntilRound)

/-- The consecutive-failure tracking tail of `runPing`: reset on `200`/`401`,
else increment, and at or past the threshold record
`_skipUntilRound = roundCounter + min(32, 2 ** (fails - threshold))`. -/
def applyPingOutcome (roundCounter : Nat) (s : BackoffState) (code : String) : BackoffState :=
  if code == "200" || code == "401" then
    { s with consecutiveFails := 0 }
  else if BACKOFF_THRESHOLD ≤ s.consecutiveFails + 1 then
    { consecutiveFails := s.consecutiveFails + 1
      skipUntilRound :=
        roundCounter + min 32 (2 ^ (s.consecutiveFails + 1 - BACKOFF_THRESHOLD)) }
  else { s with consecutiveFails := s.consecutiveFails + 1 }

/-- One round of `pingAllOnce` as observed by a single entity: either the
filter skips it (state untouched) or the probe completes with `code`. -/
def pingRound (roundCounter : Nat) (s : BackoffState) (code : String) : BackoffState :=
  if backoffSkips roundCounter s then s else applyPingOutcome roundCounter s code

/-- Successive rounds, each given as (round counter, result code). -/
def runRounds (steps : List (Nat × String)) (s : BackoffState) : BackoffState :=
  steps.foldl (fun s step => pingRound step.1 s step.2) s

/-- Round counters are strictly increasing starting at or after `lo`
(`_roundCounter` is incremented at the top of every `pingAllOnce`). -/
def roundsIncreasingFrom : Nat → List (Nat × String) → Bool
  | _, [] => true
  | lo, (r, _) :: rest => decide (lo ≤ r) && roundsIncreasingFrom (r + 1) rest

/-- The round lower bound that remains after processing a run. -/
def nextLo : Nat → List (Nat × String) → Nat
  | lo, [] => lo
  | _, (r, _) :: rest => nextLo (r + 1) rest

/-- Step invariant: a probe at round `r` never lowers `_skipUntilRound`,
and while the counter is below the threshold the recorded skip-until
round can be at most `r + 1`. -/
theorem pingRound_inv (r : Nat) (s : BackoffState) (code : String)
    (hpre : s.consecutiveFails < BACKOFF_THRESHOLD → s.skipUntilRound ≤ r) :
    s.skipUntilRound ≤ (pingRound r s code).skipUntilRound ∧
    ((pingRound r s code).consecutiveFails < BACKOFF_THRESHOLD →
      (pingRound r s code).skipUntilRound ≤ r + 1) := by
  by_cases hb : backoffSkips r s = true
  · have hsk : BACKOFF_THRESHOLD ≤ s.consecutiveFails ∧ r < s.skipUntilRound := by
      simpa [backoffSkips] using hb
    rw [pingRound, if_pos hb]
    exact ⟨le_refl _, fun hlt => absurd hsk.1 (by omega)⟩
  · have hsr : s.skipUntilRound ≤ r := by
      by_cases h1 : BACKOFF_THRESHOLD ≤ s.consecutiveFails
      · by_contra hc
        exact hb (by simp [backoffSkips, h1]; omega)
      · exact hpre (by omega)
    rw [pingRound, if_neg hb]
    unfold applyPingOutcome
    by_cases hok : (code == "200" || code == "401") = true
    · rw [if_pos hok]
      exact ⟨le_refl _, fun _ => by dsimp only; omega⟩
    · rw [if_neg hok]
      by_cases hth : BACKOFF_THRESHOLD ≤ s.consecutiveFails + 1
      · rw [if_pos hth]
        have hd : 1 ≤ min 32 (2 ^ (s.consecutiveFails + 1 - BACKOFF_THRESHOLD)) := by
          have := Nat.pos_pow_of_pos (n := 2) (s.consecutiveFails + 1 - BACKOFF_THRESHOLD)
            (by omega)
          omega
        exact ⟨by dsimp only; omega, fun hlt => by dsimp only at hlt ⊢; omega⟩
      · rw [if_neg hth]
        exact ⟨le_refl _, fun _ => by dsimp only; omega⟩

theorem roundsIncreasingFrom_cons {lo r : Nat} {code : String} {rest : List (Nat × String)}
    (h : roundsIncreasingFrom lo ((r, code) :: rest) = true) :
    lo ≤ r ∧ roundsIncreasingFrom (r + 1) rest = true := by
  unfold roundsIncreasingFrom at h
  simp only [Bool.and_eq_true, decide_eq_true_eq] at h
  exact h

/-- Run invariant: along any strictly increasing sequence of rounds,
`_skipUntilRound` is non-decreasing, and whenever the counter is below the
threshold the recorded skip-until round is below the next round bound. -/
theorem runRounds_inv :
    ∀ (steps : List (Nat × String)) (lo : Nat) (s : BackoffState),
      roundsIncreasingFrom lo steps = true →
      (s.consecutiveFails < BACKOFF_THRESHOLD → s.skipUntilRound ≤ lo) →
      s.skipUntilRound ≤ (runRounds steps s).skipUntilRound ∧
      ((runRounds steps s).consecutiveFails < BACKOFF_THRESHOLD →
        (runRounds steps s).skipUntilRound ≤ nextLo lo steps)
  | [], lo, s => fun _ hs => ⟨le_refl _, hs⟩
  | (r, code) :: rest, lo, s => by
    intro hsteps hs
    obtain ⟨hlor, hrest⟩ := roundsIncreasingFrom_cons hsteps
    have hstep := pingRound_inv r s code (fun h => le_trans (hs h) hlor)
    have hih := runRounds_inv rest (r + 1) (pingRound r s code) hrest hstep.2
    refine ⟨le_trans hstep.1 ?_, ?_⟩
    · simpa [runRounds] using hih.1
    · simpa [runRounds, nextLo] using hih.2

theorem roundsIncreasingFrom_append {pre suf : List (Nat × String)} :
    ∀ {lo : Nat}, roundsIncreasingFrom lo (pre ++ suf) = true →
      roundsIncreasingFrom lo pre = true ∧
        roundsIncreasingFrom (nextLo lo pre) suf = true := by
  induction pre with
  | nil => intro lo h; exact ⟨rfl, h⟩
  | cons step rest ih =>
    intro lo h
    obtain ⟨r, code⟩ := step
    obtain ⟨hlor, hrest⟩ := roundsIncreasingFrom_cons h
    obtain ⟨h1, h2⟩ := ih hrest
    refine ⟨?_, ?_⟩
    · unfold roundsIncreasingFrom
      simp only [Bool.and_eq_true, decide_eq_true_eq]
      exact ⟨hlor, h1⟩
    · simpa [nextLo] using h2

theorem runRounds_append (pre suf : List (Nat × String)) (s : BackoffState) :
    runRounds (pre ++ suf) s = runRounds suf (runRounds pre s) := by
  simp [runRounds, List.foldl_append]

/-! ## Claim theorems C3, C4 -/

/-- C3 counterexample: an entity whose consecutive-failure counter has just
reached the threshold in round 3 gets `_skipUntilRound = 4` (a skip window
of `min(32, 2^0) = 1`), yet the `pingAllOnce` filter does **not** skip it
in round 4 (`_roundCounter < skipUntil` is `4 < 4`, false) — so it is
skipped for zero future rounds, not for one as the claim states. -/
theorem C3_skip_rounds_cex :
    applyPingOutcome 3 ⟨2, 0⟩ "500" =
      { consecutiveFails := BACKOFF_THRESHOLD, skipUntilRound := 3 + min 32 (2 ^ 0) } ∧
    min 32 (2 ^ 0) = 1 ∧
    backoffSkips 4 (applyPingOutcome 3 ⟨2, 0⟩ "500") = false := by
  refine ⟨?_, rfl, ?_⟩ <;> decide

/-- C3 (amended): when a probe at round `r` fails and pushes the counter to
or past the threshold, `runPing` records the resume round
`_skipUntilRound = r + d` with `d = min(32, 2^(fails - threshold))`, and
`pingAllOnce` skips the entity exactly in the rounds `r'` with
`r < r' < r + d` — that is, for `d - 1` future rounds, not `d`; in
particular an entity whose counter has just reached the threshold gets
`_skipUntilRound = r + 1` and is not skipped in any future round. -/
theorem C3_skip_window (r : Nat) (s : BackoffState) (code : String)
    (hfail : (code == "200" || code == "401") = false)
    (hth : BACKOFF_THRESHOLD ≤ s.consecutiveFails + 1) :
    (applyPingOutcome r s code).consecutiveFails = s.consecutiveFails + 1 ∧
    (applyPingOutcome r s code).skipUntilRound =
      r + min 32 (2 ^ (s.consecutiveFails + 1 - BACKOFF_THRESHOLD)) ∧
    (∀ r' : Nat, r < r' →
      (backoffSkips r' (applyPingOutcome r s code) = true ↔
        r' < r + min 32 (2 ^ (s.consecutiveFails + 1 - BACKOFF_THRESHOLD)))) ∧
    (s.consecutiveFails + 1 = BACKOFF_THRESHOLD →
      (applyPingOutcome r s code).skipUntilRound = r + 1 ∧
        ∀ r' : Nat, r < r' → backoffSkips r' (applyPingOutcome r s code) = false) := by
  have hfail2 : ¬((code == "200" || code == "401") = true) := by simp [hfail]
  rw [applyPingOutcome, if_neg hfail2, if_pos hth]
  refine ⟨rfl, rfl, ?_, ?_⟩
  · intro r' _
    simp only [backoffSkips, Bool.and_eq_true, decide_eq_true_eq]
    constructor
    · intro h; exact h.2
    · intro h; exact ⟨by omega, h⟩
  · intro hexact
    constructor
    · dsimp only
      rw [hexact]
      simp [BACKOFF_THRESHOLD]
    · intro r' hr'
      simp only [backoffSkips, Bool.and_eq_false_iff, decide_eq_false_iff_not]
      right
      dsimp only
      rw [hexact]
      simp only [BACKOFF_THRESHOLD]
      omega

theorem C3_skip_window_witness :
    (("500" == "200" || "500" == "401") = false ∧
      BACKOFF_THRESHOLD ≤ (2 : Nat) + 1) ∧
    ((applyPingOutcome 3 ⟨2, 0⟩ "500").consecutiveFails = 2 + 1 ∧
      (applyPingOutcome 3 ⟨2, 0⟩ "500").skipUntilRound =
        3 + min 32 (2 ^ (2 + 1 - BACKOFF_THRESHOLD)) ∧
      (∀ r' : Nat, 3 < r' →
        (backoffSkips r' (applyPingOutcome 3 ⟨2, 0⟩ "500") = true ↔
          r' < 3 + min 32 (2 ^ (2 + 1 - BACKOFF_THRESHOLD)))) ∧
      ((2 : Nat) + 1 = BACKOFF_THRESHOLD →
        (applyPingOutcome 3 ⟨2, 0⟩ "500").skipUntilRound = 3 + 1 ∧
          ∀ r' : Nat, 3 < r' → backoffSkips r' (applyPingOutcome 3 ⟨2, 0⟩ "500") = false)) :=
  ⟨⟨by decide, by decide⟩, C3_skip_window 3 ⟨2, 0⟩ "500" (by decide) (by decide)⟩

/-- C4: across any sequence of probe results applied to one entity, the
consecutive-failure counter increases by exactly 1 on each result whose
code is not `200` or `401` and resets to 0 on a `200`/`401`; along any run
of rounds (strictly increasing round counters, starting from the fresh
state) the recorded `_skipUntilRound` never decreases — in particular
while failures continue; and after any success the counter is 0 and an
entity with counter below the threshold is never skipped, so the cleared
entity is probed in every later round until its counter again reaches the
threshold. -/
theorem C4_backoff_monotonicity :
    (∀ (r : Nat) (s : BackoffState) (code : String),
      ((code == "200" || code == "401") = false →
        (applyPingOutcome r s code).consecutiveFails = s.consecutiveFails + 1) ∧
      ((code == "200" || code == "401") = true →
        (applyPingOutcome r s code).consecutiveFails = 0)) ∧
    (∀ (steps pre suf : List (Nat × String)), steps = pre ++ suf →
      roundsIncreasingFrom 0 steps = true →
      (runRounds pre ⟨0, 0⟩).skipUntilRound ≤ (runRounds steps ⟨0, 0⟩).skipUntilRound) ∧
    (∀ (r : Nat) (s : BackoffState),
      s.consecutiveFails < BACKOFF_THRESHOLD → backoffSkips r s = false) := by
  refine ⟨?_, ?_, ?_⟩
  · intro r s code
    constructor
    · intro hfail
      have hfail2 : ¬((code == "200" || code == "401") = true) := by simp [hfail]
      rw [applyPingOutcome, if_neg hfail2]
      by_cases hth : BACKOFF_THRESHOLD ≤ s.consecutiveFails + 1
      · rw [if_pos hth]
      · rw [if_neg hth]
    · intro hok
      rw [applyPingOutcome, if_pos hok]
  · intro steps pre suf hsplit hinc
    subst hsplit
    obtain ⟨hpre, hsuf⟩ := roundsIncreasingFrom_append hinc
    have h1 := runRounds_inv pre 0 ⟨0, 0⟩ hpre (fun _ => Nat.zero_le _)
    have h2 := runRounds_inv suf (nextLo 0 pre) (runRounds pre ⟨0, 0⟩) hsuf h1.2
    rw [runRounds_append]
    exact h2.1
  · intro r s hlt
    simp only [backoffSkips, Bool.and_eq_false_iff, decide_eq_false_iff_not]
    left
    omega

theorem C4_backoff_monotonicity_witness :
    ((("500" == "200" || "500" == "401") = false ∧
        (applyPingOutcome 1 ⟨0, 0⟩ "500").consecutiveFails = 0 + 1) ∧
      (("200" == "200" || "200" == "401") = true ∧
        (applyPingOutcome 1 ⟨5, 9⟩ "200").consecutiveFails = 0)) ∧
    (([((1 : Nat), "500"), ((2 : Nat), "500")] =
        [((1 : Nat), "500")] ++ [((2 : Nat), "500")] ∧
      roundsIncreasingFrom 0 [((1 : Nat), "500"), ((2 : Nat), "500")] = true) ∧
      (runRounds [((1 : Nat), "500")] ⟨0, 0⟩).skipUntilRound ≤
        (runRounds [((1 : Nat), "500"), ((2 : Nat), "500")] ⟨0, 0⟩).skipUntilRound) ∧
    ((0 : Nat) < BACKOFF_THRESHOLD ∧ backoffSkips 7 ⟨0, 44⟩ = false) :=
  ⟨⟨⟨by decide, (C4_backoff_monotonicity.1 1 ⟨0, 0⟩ "500").1 (by decide)⟩,
      ⟨by decide, (C4_backoff_monotonicity.1 1 ⟨5, 9⟩ "200").2 (by decide)⟩⟩,
    ⟨⟨by decide, by decide⟩,
      C4_backoff_monotonicity.2.1 [((1 : Nat), "500"), ((2 : Nat), "500")]
        [((1 : Nat), "500")] [((2 : Nat), "500")] (by decide) (by decide)⟩,
    ⟨by decide, C4_backoff_monotonicity.2.2 7 ⟨0, 44⟩ (by decide)⟩⟩

/-! ## Pooled concurrency limiter (`pooled` in `src/lib/ping.ts`, C5)

`pooled(items, limit, fn, onEach)` spawns `Math.min(limit, items.length)`
worker chains; each chain runs `next()`: atomically claim `const idx = i++`
(single-threaded JS — no interleaving inside a synchronous step), return if
`idx >= items.length`, otherwise await `fn(items[idx])` and recurse.  The
interleaving of the chains is modelled by an explicit scheduler: a step
picks a worker and advances it through claim / resume. -/

/-- Phase of one worker chain: about to claim, awaiting `fn(items[idx])`,
or returned. -/
inductive WorkerPhase where
  | claiming
  | running (idx : Nat)
  | finished
  deriving Repr, DecidableEq

/-- The shared state of a `pooled` execution: the claim counter `i`, the
successive values taken by `i++`, and the worker chains. -/
structure PoolState where
  ctr : Nat
  claimed : List Nat
  workers : List WorkerPhase
  deriving Repr, DecidableEq

/-- `Array.from({ length: Math.min(limit, items.length) }, () => next())`. -/
def initPool (limit itemCount : Nat) : PoolState :=
  ⟨0, [], List.replicate (min limit itemCount) .claiming⟩

/-- One scheduler step: worker `w` advances.  A claiming worker executes
`const idx = i++` and either returns (`idx >= items.length`) or starts
`fn(items[idx])`; a running worker's awaited call resolves and the worker
loops back into `next()`. -/
def stepWorker (itemCount : Nat) (s : PoolState) (w : Nat) : PoolState :=
  match s.workers.get? w with
  | some .claiming =>
    { ctr := s.ctr + 1
      claimed := s.claimed ++ [s.ctr]
      workers := s.workers.set w (if itemCount ≤ s.ctr then .finished else .running s.ctr) }
  | some (.running _) => { s with workers := s.workers.set w .claiming }
  | _ => s

/-- A `pooled` execution under an arbitrary scheduler. -/
def runPool (itemCount : Nat) (sched : List Nat) (s : PoolState) : PoolState :=
  sched.foldl (stepWorker itemCount) s

/-- Number of simultaneously outstanding `fn` invocations. -/
def outstanding (s : PoolState) : Nat :=
  (s.workers.filter (fun w => match w with | .running _ => true | _ => false)).length

/-- The execution invariant of `pooled`: fixed worker count, claims are the
successive counter values, and a returned worker means the counter has
passed the item count. -/
def PoolInv (limit itemCount : Nat) (s : PoolState) : Prop :=
  s.workers.length = min limit itemCount ∧
  s.claimed = List.range s.ctr ∧
  (WorkerPhase.finished ∈ s.workers → itemCount ≤ s.ctr)

theorem initPool_inv (limit itemCount : Nat) : PoolInv limit itemCount (initPool limit itemCount) := by
  refine ⟨by simp [initPool], by simp [initPool], ?_⟩
  intro hmem
  simp only [initPool, List.mem_replicate] at hmem
  cases hmem.2

theorem stepWorker_inv {limit itemCount : Nat} {s : PoolState} (w : Nat)
    (h : PoolInv limit itemCount s) : PoolInv limit itemCount (stepWorker itemCount s w) := by
  obtain ⟨hlen, hclaim, hfin⟩ := h
  unfold stepWorker
  cases hw : s.workers.get? w with
  | none => exact ⟨hlen, hclaim, hfin⟩
  | some phase =>
    cases phase with
    | claiming =>
      refine ⟨by simpa using hlen, by simp [hclaim, List.range_succ], ?_⟩
      intro hmem
      rcases List.mem_or_eq_of_mem_set hmem with hold | hnew
      · exact le_trans (hfin hold) (Nat.le_succ _)
      · by_cases hc : itemCount ≤ s.ctr
        · dsimp only
          omega
        · rw [if_neg hc] at hnew
          cases hnew
    | running idx =>
      refine ⟨by simpa using hlen, hclaim, ?_⟩
      intro hmem
      rcases List.mem_or_eq_of_mem_set hmem with hold | hnew
      · exact hfin hold
      · cases hnew
    | finished => exact ⟨hlen, hclaim, hfin⟩

theorem runPool_inv (limit itemCount : Nat) (sched : List Nat) :
    ∀ {s : PoolState}, PoolInv limit itemCount s →
      PoolInv limit itemCount (runPool itemCount sched s) := by
  induction sched with
  | nil => intro s h; exact h
  | cons w rest ih =>
    intro s h
    exact ih (stepWorker_inv w h)

theorem outstanding_le_workers (s : PoolState) : outstanding s ≤ s.workers.length :=
  List.length_filter_le _ _

/-! ## Claim theorems C5, plus counterexample for the `limit = 0` edge -/

/-- C5 counterexample: the claim quantifies over every limit `K ≤ M`, but
for `K = 0` (and `M = 1`) `pooled` spawns `Math.min(0, 1) = 0` worker
chains, `Promise.allSettled([])` resolves immediately, and no item is ever
claimed: in the (vacuously) completed pool the single item has been
claimed zero times, not exactly once. -/
theorem C5_pooled_limit_cex :
    (∀ w ∈ (runPool 1 [] (initPool 0 1)).workers, w = WorkerPhase.finished) ∧
    (runPool 1 [] (initPool 0 1)).claimed.count 0 = 0 := by
  constructor
  · intro w hw
    simp [runPool, initPool] at hw
  · decide

/-- C5 (amended): for every item count `M`, every positive limit `K ≤ M`
and every scheduling of the worker chains, `pooled` never has more than
`K` invocations of the work function outstanding simultaneously, the
multiset of claimed indices never contains a duplicate, and once every
worker chain has returned each of the `M` items has been claimed exactly
once.  (For `K = 0` no worker starts and nothing is claimed.) -/
theorem C5_pooled_limit (limit itemCount : Nat) (hpos : 1 ≤ limit)
    (hK : limit ≤ itemCount) (sched : List Nat) :
    outstanding (runPool itemCount sched (initPool limit itemCount)) ≤ limit ∧
    (runPool itemCount sched (initPool limit itemCount)).claimed.Nodup ∧
    ((∀ w ∈ (runPool itemCount sched (initPool limit itemCount)).workers,
        w = WorkerPhase.finished) →
      ∀ i < itemCount,
        (runPool itemCount sched (initPool limit itemCount)).claimed.count i = 1) := by
  obtain ⟨hlen, hclaim, hfin⟩ :=
    runPool_inv limit itemCount sched (initPool_inv limit itemCount)
  refine ⟨?_, ?_, ?_⟩
  · calc outstanding _ ≤ _ := outstanding_le_workers _
      _ = min limit itemCount := hlen
      _ ≤ limit := Nat.min_le_left _ _
  · rw [hclaim]; exact List.nodup_range _
  · intro hall i hi
    have hne : (runPool itemCount sched (initPool limit itemCount)).workers ≠ [] := by
      intro hemp
      rw [hemp] at hlen
      simp only [List.length_nil] at hlen
      omega
    have hmem : WorkerPhase.finished ∈
        (runPool itemCount sched (initPool limit itemCount)).workers := by
      obtain ⟨w, hw⟩ := List.exists_mem_of_ne_nil _ hne
      have := hall w hw
      rwa [this] at hw
    have hctr := hfin hmem
    rw [hclaim]
    refine List.count_eq_one_of_mem (List.nodup_range _) ?_
    rw [List.mem_range]
    omega

theorem C5_pooled_limit_witness :
    ((1 : Nat) ≤ 2 ∧ (2 : Nat) ≤ 3) ∧
    (outstanding (runPool 3 [0, 1, 0, 0, 1, 1, 0, 0, 1, 1] (initPool 2 3)) ≤ 2 ∧
      (runPool 3 [0, 1, 0, 0, 1, 1, 0, 0, 1, 1] (initPool 2 3)).claimed.Nodup ∧
      ((∀ w ∈ (runPool 3 [0, 1, 0, 0, 1, 1, 0, 0, 1, 1] (initPool 2 3)).workers,
          w = WorkerPhase.finished) →
        ∀ i < 3,
          (runPool 3 [0, 1, 0, 0, 1, 1, 0, 0, 1, 1] (initPool 2 3)).claimed.count i = 1)) :=
  ⟨⟨by decide, by decide⟩,
    C5_pooled_limit 2 3 (by decide) (by decide) [0, 1, 0, 0, 1, 1, 0, 0, 1, 1]⟩

/-! ## Single-probe settlement (`ping` / `settle` in `src/lib/ping.ts`, C6)

`ping` returns `new Promise((resolve) => ...)` with no reject path: the
only way the promise settles is the internal `settle`, which is guarded by
the `settled` flag.  Three asynchronous signals race: the response head
(`settle(String(res.statusCode))` at TTFB), the probe's timeout timer
(`settle("000")`), and the request error handler
(`settle("ERR", err.code || err.message)`).  Signals are modelled in their
arrival order, each carrying the elapsed milliseconds at which it fires. -/

/-- A settled promise value `{code, ms, detail?}`. -/
structure PingResult where
  code : String
  ms : Int
  detail : Option String
  deriving Repr, DecidableEq

/-- One of the three racing signals, with its arrival time. -/
inductive ProbeSignal where
  | response (status : Nat) (t : Int)
  | timerFire (t : Int)
  | connError (tag : String) (t : Int)
  deriving Repr, DecidableEq

/-- The `settled` flag and the `resolve` calls performed so far. -/
structure SettleState where
  settled : Bool
  resolved : List PingResult
  deriving Repr, DecidableEq

/-- `settle(code, detail)`: a no-op once `settled`; otherwise set the flag,
clear the timer and resolve `{code, ms: elapsed(), ...detail}`. -/
def settle (st : SettleState) (code : String) (ms : Int) (detail : Option String) : SettleState :=
  if st.settled then st
  else { settled := true, resolved := st.resolved ++ [⟨code, ms, detail⟩] }

/-- Handler dispatch: the response handler settles with the status as a
string, the timer with `"000"`, the error handler with `"ERR"` and the
error tag as detail. -/
def signalStep (st : SettleState) : ProbeSignal → SettleState
  | .response status t => settle st (toString status) t none
  | .timerFire t => settle st "000" t none
  | .connError tag t => settle st "ERR" t (some tag)

/-- A whole probe: the signals processed in arrival order from the
unsettled initial state. -/
def runSignals (sigs : List ProbeSignal) : SettleState :=
  sigs.foldl signalStep ⟨false, []⟩

/-- The classification of the signal that wins the race. -/
def classify : ProbeSignal → PingResult
  | .response status t => ⟨toString status, t, none⟩
  | .timerFire t => ⟨"000", t, none⟩
  | .connError tag t => ⟨"ERR", t, some tag⟩

theorem signalStep_settled {st : SettleState} (h : st.settled = true) (sig : ProbeSignal) :
    signalStep st sig = st := by
  cases sig <;> simp [signalStep, settle, h]

theorem foldl_signalStep_settled (rest : List ProbeSignal) :
    ∀ {st : SettleState}, st.settled = true → rest.foldl signalStep st = st := by
  induction rest with
  | nil => intro st _; rfl
  | cons sig more ih =>
    intro st h
    rw [List.foldl_cons, signalStep_settled h sig]
    exact ih h

/-- C6: for every invocation of `ping`, whatever nonempty sequence of
signals arrives, the promise resolves exactly once and never rejects (the
embedding has no reject channel — `settle`/`resolve` is the only
settlement): the single resolution is the classification of the first
signal — the HTTP status as a string for a response, `"000"` for the
timeout timer, `"ERR"` with the error tag in `detail` for a connection
error — and all later signals are no-ops. -/
theorem C6_ping_settles_once (first : ProbeSignal) (rest : List ProbeSignal) :
    runSignals (first :: rest) = ⟨true, [classify first]⟩ := by
  have h1 : signalStep ⟨false, []⟩ first = ⟨true, [classify first]⟩ := by
    cases first <;> rfl
  rw [runSignals, List.foldl_cons, h1]
  exact foldl_signalStep_settled rest rfl

/-! ## Epoch staleness guard (C2) — modelled from the spec

The staleness-guarded commit path of the current `pingAllOnce`/`runPing`
is absent from `src/`: the revision of `src/lib/ping.ts` present there
does not export the `bumpPingEpoch`/`getPingEpoch` functions its own test
suite imports, and carries none of the `_lastCommitEpoch`/`_lastCommitSeq`
/`_staleCommitDrops` fields those tests assert on.  The guard is therefore
modelled from spec §4.4 and the field names of the tests. -/

/-- The eviction loop is the identity while the history is within the cap. -/
theorem evictLoop_no_evict (cap : Nat) :
    ∀ (pings : List Ping) (mt : Option Metrics), pings.length ≤ cap →
      evictLoop cap pings mt = (pings, mt)
  | [], _, _ => rfl
  | removed :: rest, mt, h => by
    rw [evictLoop, if_neg (by omega)]

/-- Below the cap, `applyModelPingResult` appends the result and evicts
nothing. -/
theorem apply_append_under_cap (m : PModel) (r : Ping) (cap : Nat)
    (h : m.pings.length < cap) :
    (applyModelPingResult true m r cap).pings = m.pings ++ [r] := by
  rw [applyModelPingResult_eq]
  rw [evictLoop_no_evict cap (m.pings ++ [r]) _
    (by simp only [List.length_append, List.length_cons, List.length_nil]; omega)]

/-- Modelled from the spec: the per-entity state of the epoch staleness
guard — the ping history, the entity's own (epoch, sequence) pair for
issuing (`_seqEpoch`/`_nextSeq` in the tests), the (epoch, sequence) of
the last committed probe, and the stale-drop diagnostic counter. -/
structure EpochEntity where
  hist : PModel
  seqEpoch : Nat
  nextSeq : Nat
  lastCommitEpoch : Nat
  lastCommitSeq : Nat
  staleCommitDrops : Nat
  deriving Repr, DecidableEq

/-- Modelled from the spec: `bumpPingEpoch()` — the orchestrator advances
its monotonic epoch counter whenever an in-flight round must be
invalidated externally. -/
def bumpPingEpoch (epoch : Nat) : Nat := epoch + 1

/-- Modelled from the spec (§4.4): "Each entity tracks its own
(epoch, sequence) pair at probe-issue time" — at issue the entity's
sequence epoch is re-synced to the orchestrator's current epoch
(restarting the sequence when stale), the probe is stamped with the pair,
and the next sequence number is advanced.  Returns the updated entity and
the issued (epoch, sequence). -/
def issueProbe (currentEpoch : Nat) (e : EpochEntity) : EpochEntity × Nat × Nat :=
  let e2 := if e.seqEpoch == currentEpoch then e
            else { e with seqEpoch := currentEpoch, nextSeq := 0 }
  ({ e2 with nextSeq := e2.nextSeq + 1 }, currentEpoch, e2.nextSeq)

/-- Modelled from the spec (§4.4): a completed probe carries the
(epoch, sequence) pair captured at issue time; it is committed only if its
epoch equals the entity's current epoch (the orchestrator's monotonic
epoch counter) and its sequence is not older than the entity's
last-committed sequence; otherwise it is dropped — the history is left
unchanged — and the stale-drop counter is incremented.  A commit appends
through the metrics cache at the `MAX_PINGS` cap and records the pair. -/
def commitProbeResult (currentEpoch : Nat) (e : EpochEntity)
    (issuedEpoch issuedSeq : Nat) (r : Ping) : EpochEntity :=
  if issuedEpoch == currentEpoch && decide (e.lastCommitSeq ≤ issuedSeq) then
    { e with
      hist := applyModelPingResult true e.hist r MAX_PINGS
      lastCommitEpoch := issuedEpoch
      lastCommitSeq := issuedSeq }
  else { e with staleCommitDrops := e.staleCommitDrops + 1 }

theorem commitProbeResult_drop (currentEpoch : Nat) (e : EpochEntity)
    (issuedEpoch issuedSeq : Nat) (r : Ping)
    (h : ¬(issuedEpoch = currentEpoch ∧ e.lastCommitSeq ≤ issuedSeq)) :
    commitProbeResult currentEpoch e issuedEpoch issuedSeq r =
      { e with staleCommitDrops := e.staleCommitDrops + 1 } := by
  have hcond : (issuedEpoch == currentEpoch && decide (e.lastCommitSeq ≤ issuedSeq)) = false := by
    simp only [Bool.and_eq_false_iff, beq_eq_false_iff_ne, ne_eq, decide_eq_false_iff_not]
    by_cases h1 : issuedEpoch = currentEpoch
    · exact Or.inr (fun h2 => h ⟨h1, h2⟩)
    · exact Or.inl h1
  rw [commitProbeResult, hcond]
  simp

theorem commitProbeResult_commit (currentEpoch : Nat) (e : EpochEntity)
    (issuedEpoch issuedSeq : Nat) (r : Ping)
    (h : issuedEpoch = currentEpoch ∧ e.lastCommitSeq ≤ issuedSeq) :
    commitProbeResult currentEpoch e issuedEpoch issuedSeq r =
      { e with
        hist := applyModelPingResult true e.hist r MAX_PINGS
        lastCommitEpoch := issuedEpoch
        lastCommitSeq := issuedSeq } := by
  have hcond : (issuedEpoch == currentEpoch && decide (e.lastCommitSeq ≤ issuedSeq)) = true := by
    simp only [Bool.and_eq_true, beq_iff_eq, decide_eq_true_eq]
    exact h
  rw [commitProbeResult, hcond]
  simp

/-- Issuing a probe touches only the entity's (epoch, sequence) issue
fields: history and stale counter are preserved, and the issued epoch is
the orchestrator's current epoch. -/
theorem issueProbe_fields (currentEpoch : Nat) (e : EpochEntity) :
    (issueProbe currentEpoch e).1.hist = e.hist ∧
    (issueProbe currentEpoch e).1.staleCommitDrops = e.staleCommitDrops ∧
    (issueProbe currentEpoch e).2.1 = currentEpoch := by
  unfold issueProbe
  by_cases h : e.seqEpoch == currentEpoch <;> simp [h]

/-- C2: a completed probe is committed to the entity's ping history only
if its epoch equals the entity's current epoch and its sequence is not
older than the last-committed sequence; a result failing this check is
dropped — ping history and metrics unchanged, commit bookkeeping
untouched — and the entity's stale-drop counter is incremented by one.  A
passing result is appended to the history through the metrics cache at the
`MAX_PINGS` cap — below the cap the new history is exactly the old one
plus the result — without touching the stale-drop counter.  Consequently a
probe issued at the current epoch and completing only after the epoch is
bumped is always dropped: the history is exactly as before the probe and
the stale-drop counter is incremented (spec §8 scenario 4). -/
theorem C2_stale_commit_guard (currentEpoch issuedEpoch issuedSeq : Nat)
    (e : EpochEntity) (r : Ping) :
    (¬(issuedEpoch = currentEpoch ∧ e.lastCommitSeq ≤ issuedSeq) →
      (commitProbeResult currentEpoch e issuedEpoch issuedSeq r).hist = e.hist ∧
      (commitProbeResult currentEpoch e issuedEpoch issuedSeq r).lastCommitEpoch =
        e.lastCommitEpoch ∧
      (commitProbeResult currentEpoch e issuedEpoch issuedSeq r).lastCommitSeq =
        e.lastCommitSeq ∧
      (commitProbeResult currentEpoch e issuedEpoch issuedSeq r).staleCommitDrops =
        e.staleCommitDrops + 1) ∧
    ((issuedEpoch = currentEpoch ∧ e.lastCommitSeq ≤ issuedSeq) →
      (commitProbeResult currentEpoch e issuedEpoch issuedSeq r).hist =
        applyModelPingResult true e.hist r MAX_PINGS ∧
      (commitProbeResult currentEpoch e issuedEpoch issuedSeq r).staleCommitDrops =
        e.staleCommitDrops ∧
      (e.hist.pings.length < MAX_PINGS →
        (commitProbeResult currentEpoch e issuedEpoch issuedSeq r).hist.pings =
          e.hist.pings ++ [r])) ∧
    (commitProbeResult (bumpPingEpoch currentEpoch) (issueProbe currentEpoch e).1
        (issueProbe currentEpoch e).2.1 (issueProbe currentEpoch e).2.2 r).hist = e.hist ∧
    (commitProbeResult (bumpPingEpoch currentEpoch) (issueProbe currentEpoch e).1
        (issueProbe currentEpoch e).2.1 (issueProbe currentEpoch e).2.2 r).staleCommitDrops =
      e.staleCommitDrops + 1 := by
  obtain ⟨hih, hid, hie⟩ := issueProbe_fields currentEpoch e
  have hstale : ¬((issueProbe currentEpoch e).2.1 = bumpPingEpoch currentEpoch ∧
      (issueProbe currentEpoch e).1.lastCommitSeq ≤ (issueProbe currentEpoch e).2.2) := by
    intro hcon
    rw [hie, bumpPingEpoch] at hcon
    omega
  have hdrop2 := commitProbeResult_drop (bumpPingEpoch currentEpoch)
    (issueProbe currentEpoch e).1 (issueProbe currentEpoch e).2.1
    (issueProbe currentEpoch e).2.2 r hstale
  refine ⟨?_, ?_, ?_, ?_⟩
  · intro hdrop
    rw [commitProbeResult_drop currentEpoch e issuedEpoch issuedSeq r hdrop]
    exact ⟨rfl, rfl, rfl, rfl⟩
  · intro hcommit
    rw [commitProbeResult_commit currentEpoch e issuedEpoch issuedSeq r hcommit]
    exact ⟨rfl, rfl, fun hcap => apply_append_under_cap e.hist r MAX_PINGS hcap⟩
  · rw [hdrop2]
    exact hih
  · rw [hdrop2]
    rw [show ({ (issueProbe currentEpoch e).1 with
        staleCommitDrops := (issueProbe currentEpoch e).1.staleCommitDrops + 1
          : EpochEntity }).staleCommitDrops =
      (issueProbe currentEpoch e).1.staleCommitDrops + 1 from rfl]
    rw [hid]

/-- Witness at the values of the repository's own staleness tests: a probe
issued with sequence 4 against a last-committed sequence 5 (same epoch,
the duplicate-sequence test) is dropped with the stale counter bumped to
1; a fresh probe (epoch and sequence in order) is committed by exact
append; and a probe issued at epoch 1 against a fresh entity and
completing after a `bumpPingEpoch` (the mid-flight-bump test) is dropped
with the history still empty. -/
theorem C2_stale_commit_guard_witness :
    (¬((7 : Nat) = 7 ∧ (5 : Nat) ≤ 4) ∧
      ((commitProbeResult 7 ⟨⟨[], none⟩, 7, 4, 7, 5, 0⟩ 7 4 ⟨"200", 10⟩).hist = ⟨[], none⟩ ∧
        (commitProbeResult 7 ⟨⟨[], none⟩, 7, 4, 7, 5, 0⟩ 7 4 ⟨"200", 10⟩).lastCommitEpoch = 7 ∧
        (commitProbeResult 7 ⟨⟨[], none⟩, 7, 4, 7, 5, 0⟩ 7 4 ⟨"200", 10⟩).lastCommitSeq = 5 ∧
        (commitProbeResult 7 ⟨⟨[], none⟩, 7, 4, 7, 5, 0⟩ 7 4 ⟨"200", 10⟩).staleCommitDrops =
          0 + 1)) ∧
    (((7 : Nat) = 7 ∧ (5 : Nat) ≤ 6) ∧
      ((commitProbeResult 7 ⟨⟨[], none⟩, 7, 4, 7, 5, 0⟩ 7 6 ⟨"200", 10⟩).hist =
          applyModelPingResult true ⟨[], none⟩ ⟨"200", 10⟩ MAX_PINGS ∧
        (commitProbeResult 7 ⟨⟨[], none⟩, 7, 4, 7, 5, 0⟩ 7 6 ⟨"200", 10⟩).staleCommitDrops = 0 ∧
        (([] : List Ping).length < MAX_PINGS →
          (commitProbeResult 7 ⟨⟨[], none⟩, 7, 4, 7, 5, 0⟩ 7 6 ⟨"200", 10⟩).hist.pings =
            [] ++ [Ping.mk "200" 10]))) ∧
    ((commitProbeResult (bumpPingEpoch 1) (issueProbe 1 ⟨⟨[], none⟩, 0, 0, 0, 0, 0⟩).1
        (issueProbe 1 ⟨⟨[], none⟩, 0, 0, 0, 0, 0⟩).2.1
        (issueProbe 1 ⟨⟨[], none⟩, 0, 0, 0, 0, 0⟩).2.2 ⟨"200", 10⟩).hist = ⟨[], none⟩ ∧
      (commitProbeResult (bumpPingEpoch 1) (issueProbe 1 ⟨⟨[], none⟩, 0, 0, 0, 0, 0⟩).1
        (issueProbe 1 ⟨⟨[], none⟩, 0, 0, 0, 0, 0⟩).2.1
        (issueProbe 1 ⟨⟨[], none⟩, 0, 0, 0, 0, 0⟩).2.2 ⟨"200", 10⟩).staleCommitDrops = 0 + 1) :=
  ⟨⟨by decide,
      (C2_stale_commit_guard 7 7 4 ⟨⟨[], none⟩, 7, 4, 7, 5, 0⟩ ⟨"200", 10⟩).1 (by decide)⟩,
    ⟨⟨rfl, by decide⟩,
      (C2_stale_commit_guard 7 7 6 ⟨⟨[], none⟩, 7, 4, 7, 5, 0⟩ ⟨"200", 10⟩).2.1 ⟨rfl, by decide⟩⟩,
    (C2_stale_commit_guard 1 0 0 ⟨⟨[], none⟩, 0, 0, 0, 0, 0⟩ ⟨"200", 10⟩).2.2⟩

/-! ## Raw input dispatcher (`onData` / `flushEsc` / `splitEscapeSequences`, C9)

The TUI reads raw bytes.  A lone `\x1b` is buffered with a 50 ms grace
timer (`flushEsc` dispatches the buffer when it fires); further single
bytes grow the buffer until a complete sequence is recognized; a
multi-byte delivery cancels the pending escape and is split into
individual sequences.  Timing is modelled by explicit events: a `data`
event for each delivery and a `graceElapsed` event for the timer firing
(which the runtime only delivers while the timer is armed). -/

theorem dropWhile_len_le (p : Char → Bool) (l : List Char) :
    (l.dropWhile p).length ≤ l.length := by
  induction l with
  | nil => simp
  | cons c rest ih =>
    rw [List.dropWhile_cons]
    by_cases h : p c
    · simp only [h, if_true]
      exact le_trans ih (Nat.le_succ _)
    · simp [h]

/-- CSI parameter bytes accepted by `splitEscapeSequences`: digits and
semicolons. -/
def isCsiParamChar (c : Char) : Bool :=
  (decide ('0' ≤ c) && decide (c ≤ '9')) || c == ';'

/-- `splitEscapeSequences(s)`: split a multi-byte chunk into CSI sequences
(`ESC [ params finalByte`) and single characters, preserving order. -/
def splitEscapeSequences (s : List Char) : List (List Char) :=
  match s with
  | [] => []
  | '\x1b' :: '[' :: rest2 =>
    match h : rest2.dropWhile isCsiParamChar with
    | f :: rest3 =>
      ('\x1b' :: '[' :: (rest2.takeWhile isCsiParamChar ++ [f])) :: splitEscapeSequences rest3
    | [] => ['\x1b' :: '[' :: rest2.takeWhile isCsiParamChar]
  | '\x1b' :: rest => ['\x1b'] :: splitEscapeSequences rest
  | c :: rest => [c] :: splitEscapeSequences rest
termination_by s.length
decreasing_by
  · have hle := dropWhile_len_le isCsiParamChar rest2
    rw [h] at hle
    simp only [List.length_cons] at hle ⊢
    omega
  · simp only [List.length_cons]
    omega
  · simp only [List.length_cons]
    omega

/-- The pending-escape buffer and its grace timer. -/
structure EscState where
  escBuf : List Char
  escTimer : Bool
  deriving Repr, DecidableEq

/-- `escBuf.endsWith("\x1b[")`. -/
def endsWithCsiIntro (l : List Char) : Bool :=
  match l.reverse with
  | a :: b :: _ => a == '[' && b == '\x1b'
  | _ => false

def isDigitChar (c : Char) : Bool := decide ('0' ≤ c) && decide (c ≤ '9')

/-- `flushEsc()`: dispatch the buffered bytes as one event and clear
buffer and timer. -/
def flushEsc (st : EscState) : EscState × List (List Char) :=
  (⟨[], false⟩, [st.escBuf])

/-- `onData(raw)` from the TUI module: returns the successor state and the
dispatched events, in order.  (Raw-mode data events always carry at least
one byte; the empty-chunk arm is an unreachable no-op.) -/
def onData (st : EscState) (chunk : List Char) : EscState × List (List Char) :=
  if 1 < chunk.length then
    ((if st.escTimer then ⟨[], false⟩ else st), splitEscapeSequences chunk)
  else
    match chunk with
    | [c] =>
      if c = '\x1b' then
        (⟨['\x1b'], true⟩, if st.escTimer then [['\x1b']] else [])
      else if !st.escBuf.isEmpty then
        let buf := st.escBuf ++ [c]
        if 3 ≤ buf.length && !(buf.getLast? == some '[') && !endsWithCsiIntro buf then
          if buf.length == 3 &&
              (match buf.get? 2 with | some c2 => isDigitChar c2 | none => false) then
            ({ st with escBuf := buf }, [])
          else (⟨[], false⟩, [buf])
        else ({ st with escBuf := buf }, [])
      else (st, [[c]])
    | _ => (st, [])

inductive TermEvent where
  | data (chunk : List Char)
  | graceElapsed
  deriving Repr, DecidableEq

/-- One event: a data delivery, or the grace timer firing (a cleared timer
never fires, so `graceElapsed` is a no-op when the timer is not armed). -/
def inputStep (st : EscState) : TermEvent → EscState × List (List Char)
  | .data chunk => onData st chunk
  | .graceElapsed => if st.escTimer then flushEsc st else (st, [])

/-- Process a whole event sequence from the idle state, collecting every
dispatched event in order. -/
def runInput (events : List TermEvent) : EscState × List (List Char) :=
  events.foldl
    (fun acc ev => ((inputStep acc.1 ev).1, acc.2 ++ (inputStep acc.1 ev).2))
    (⟨[], false⟩, [])

theorem onData_csi_final (c : Char) (t : Bool) (hbr : (c == '[') = false)
    (hesc : (c == '\x1b') = false) (hdig : isDigitChar c = false) :
    onData ⟨['\x1b', '['], t⟩ [c] = (⟨[], false⟩, [['\x1b', '[', c]]) := by
  have hne : c ≠ '\x1b' := by simpa using hesc
  rw [onData]
  simp [hne, endsWithCsiIntro, hbr, hdig]

theorem onData_csi_digit (d : Char) (t : Bool) (hdig : isDigitChar d = true) :
    onData ⟨['\x1b', '['], t⟩ [d] = (⟨['\x1b', '[', d], t⟩, []) := by
  have hne : d ≠ '\x1b' := by
    intro h
    rw [h] at hdig
    exact absurd hdig (by decide)
  rw [onData]
  simp [hne, endsWithCsiIntro, hdig]

theorem onData_csi_after_digit (d f : Char) (t : Bool) (hdig : isDigitChar d = true)
    (hbr : (f == '[') = false) (hesc : (f == '\x1b') = false) :
    onData ⟨['\x1b', '[', d], t⟩ [f] = (⟨[], false⟩, [['\x1b', '[', d, f]]) := by
  have hne : f ≠ '\x1b' := by simpa using hesc
  rw [onData]
  simp [hne, endsWithCsiIntro, hbr]

/-- C9: a single escape byte with nothing following within the 50 ms grace
window is dispatched as exactly one bare-escape event; an escape byte
followed within the window by the bytes of a recognized sequence —
`'[' F` for a non-digit final byte `F`, as in `ESC [ A`, or `'[' d F` for
a digit `d`, as in `ESC [ 5 ~` — is dispatched as exactly one combined
event equal to the whole sequence, and never additionally as a bare
escape. -/
theorem C9_escape_disambiguation :
    (runInput [.data ['\x1b'], .graceElapsed]).2 = [['\x1b']] ∧
    (∀ c : Char, (c == '[') = false → (c == '\x1b') = false → isDigitChar c = false →
      (runInput [.data ['\x1b'], .data ['['], .data [c]]).2 = [['\x1b', '[', c]]) ∧
    (∀ d f : Char, isDigitChar d = true → (f == '[') = false → (f == '\x1b') = false →
      (runInput [.data ['\x1b'], .data ['['], .data [d], .data [f]]).2 =
        [['\x1b', '[', d, f]]) := by
  refine ⟨by decide, ?_, ?_⟩
  · intro c hbr hesc hdig
    have hrun : runInput [.data ['\x1b'], .data ['['], .data [c]] =
        ((onData ⟨['\x1b', '['], true⟩ [c]).1, (onData ⟨['\x1b', '['], true⟩ [c]).2) := rfl
    rw [hrun, onData_csi_final c true hbr hesc hdig]
  · intro d f hdig hbr hesc
    have hrun : runInput [.data ['\x1b'], .data ['['], .data [d], .data [f]] =
        ((inputStep (onData ⟨['\x1b', '['], true⟩ [d]).1 (.data [f])).1,
          (onData ⟨['\x1b', '['], true⟩ [d]).2 ++
            (inputStep (onData ⟨['\x1b', '['], true⟩ [d]).1 (.data [f])).2) := rfl
    rw [hrun, onData_csi_digit d true hdig]
    simp only [inputStep]
    rw [onData_csi_after_digit d f true hdig hbr hesc]
    rfl

theorem C9_escape_disambiguation_witness :
    ((runInput [.data ['\x1b'], .graceElapsed]).2 = [['\x1b']]) ∧
    ((('A' == '[') = false ∧ (('A' == '\x1b') = false) ∧ isDigitChar 'A' = false) ∧
      (runInput [.data ['\x1b'], .data ['['], .data ['A']]).2 = [['\x1b', '[', 'A']]) ∧
    ((isDigitChar '5' = true ∧ (('~' == '[') = false) ∧ (('~' == '\x1b') = false)) ∧
      (runInput [.data ['\x1b'], .data ['['], .data ['5'], .data ['~']]).2 =
        [['\x1b', '[', '5', '~']]) :=
  ⟨C9_escape_disambiguation.1,
    ⟨⟨by decide, by decide, by decide⟩,
      C9_escape_disambiguation.2.1 'A' (by decide) (by decide) (by decide)⟩,
    ⟨⟨by decide, by decide, by decide⟩,
      C9_escape_disambiguation.2.2 '5' '~' (by decide) (by decide) (by decide)⟩⟩

/-! ## ANSI-aware width and truncation (`visLen`, `truncAnsi`,
`fullWidthLine`, C10)

`visLen` (in `src/lib/utils.ts`) strips SGR styling sequences
(`/\x1b\[[0-9;]*m/g`), then counts columns: a fast path returns the length
for pure-ASCII text, otherwise code points matching the emoji ranges count
as 2 columns.  `truncAnsi` (TUI module) walks UTF-16 code units, copying
whole escape sequences (`ESC [ params finalByte`) verbatim and stopping at
the first visible character once `maxVis` of them have been emitted.
`fullWidthLine` truncates to `cols - WRAP_GUARD_COLS` and pads with
spaces up to that budget.  All characters in these statements are BMP code
points (one code unit each). -/

/-- Remove every match of `ANSI_RE = /\x1b\[[0-9;]*m/` scanning left to
right (the `String.replace` global-replace semantics): at a match the
whole sequence is dropped and scanning resumes after it; at a non-match
the character is kept and scanning advances one character. -/
def stripAnsi (s : List Char) : List Char :=
  match s with
  | [] => []
  | c :: rest =>
    if c = '\x1b' then
      match rest with
      | [] => ['\x1b']
      | c2 :: rest2 =>
        if c2 = '[' then
          match hdw : rest2.dropWhile isCsiParamChar with
          | c3 :: rest3 =>
            if c3 = 'm' then stripAnsi rest3 else '\x1b' :: stripAnsi (c2 :: rest2)
          | [] => '\x1b' :: stripAnsi (c2 :: rest2)
        else '\x1b' :: stripAnsi (c2 :: rest2)
    else c :: stripAnsi rest
termination_by s.length
decreasing_by
  all_goals simp only [List.length_cons]
  all_goals try omega
  have hle := dropWhile_len_le isCsiParamChar rest2
  rw [hdw] at hle
  simp only [List.length_cons] at hle
  omega

/-- The code-point ranges of `EMOJI_RE` in `src/lib/utils.ts`: glyphs
counted as two terminal columns. -/
def isWideChar (c : Char) : Bool :=
  let n := c.toNat
  (decide (0x1F600 ≤ n) && decide (n ≤ 0x1F64F)) ||
  (decide (0x1F300 ≤ n) && decide (n ≤ 0x1F5FF)) ||
  (decide (0x1F680 ≤ n) && decide (n ≤ 0x1F6FF)) ||
  (decide (0x1F1E0 ≤ n) && decide (n ≤ 0x1F1FF)) ||
  (decide (0x2600 ≤ n) && decide (n ≤ 0x26FF)) ||
  (decide (0x2700 ≤ n) && decide (n ≤ 0x27BF)) ||
  (decide (0xFE00 ≤ n) && decide (n ≤ 0xFE0F)) ||
  (decide (0x1F900 ≤ n) && decide (n ≤ 0x1F9FF)) ||
  (decide (0x1FA00 ≤ n) && decide (n ≤ 0x1FA6F)) ||
  (decide (0x1FA70 ≤ n) && decide (n ≤ 0x1FAFF)) ||
  n == 0x200D || n == 0x20E3 ||
  (decide (0xE0020 ≤ n) && decide (n ≤ 0xE007F))

/-- `/[^\x00-\x7f]/` does not match the character. -/
def isAsciiCode (c : Char) : Bool := decide (c.toNat ≤ 0x7f)

/-- `EMOJI_RE.test(ch) ? 2 : 1`. -/
def charWidth (c : Char) : Nat := if isWideChar c then 2 else 1

/-- `visLen(s)` from `src/lib/utils.ts`. -/
def visLen (s : List Char) : Nat :=
  let stripped := stripAnsi s
  if stripped.all isAsciiCode then stripped.length
  else (stripped.map charWidth).sum

/-- Parameter bytes accepted inside an escape sequence by `truncAnsi`:
`"\x20" <= c <= "\x3f"`. -/
def isTruncParamByte (c : Char) : Bool := decide ('\x20' ≤ c) && decide (c ≤ '\x3f')

/-- The escape-sequence scan of `truncAnsi` after the initial `ESC`: an
optional `[`, parameter bytes, and one final byte when present.  Returns
the consumed sequence tail and the remaining input. -/
def takeEsc (rest : List Char) : List Char × List Char :=
  match rest with
  | [] => ([], [])
  | c :: rest2 =>
    if c = '[' then
      match rest2.dropWhile isTruncParamByte with
      | f :: rest3 => ('[' :: (rest2.takeWhile isTruncParamByte ++ [f]), rest3)
      | [] => ('[' :: rest2.takeWhile isTruncParamByte, [])
    else ([], c :: rest2)

theorem takeEsc_append (rest : List Char) : (takeEsc rest).1 ++ (takeEsc rest).2 = rest := by
  match rest with
  | [] => rfl
  | c :: rest2 =>
    rw [takeEsc]
    by_cases hc : c = '['
    · rw [if_pos hc]
      cases hd : rest2.dropWhile isTruncParamByte with
      | nil =>
        have hsplit := List.takeWhile_append_dropWhile isTruncParamByte rest2
        rw [hd] at hsplit
        simp only [List.append_nil] at hsplit
        subst hc
        simp [hsplit]
      | cons f rest3 =>
        have hsplit := List.takeWhile_append_dropWhile isTruncParamByte rest2
        rw [hd] at hsplit
        subst hc
        simp only [List.cons_append, List.append_assoc, List.singleton_append,
          List.nil_append]
        rw [hsplit]
    · rw [if_neg hc]
      rfl

theorem takeEsc_len (rest : List Char) : (takeEsc rest).2.length ≤ rest.length := by
  conv_rhs => rw [← takeEsc_append rest]
  rw [List.length_append]
  omega

/-- The per-code-unit scan of `truncAnsi` (`vis` visible characters
already emitted): escape sequences are copied whole without counting,
visible characters are emitted until the budget is reached. -/
def truncAnsiGo (maxVis : Nat) (s : List Char) (vis : Nat) : List Char :=
  match s with
  | [] => []
  | c :: rest =>
    if c = '\x1b' then
      '\x1b' :: ((takeEsc rest).1 ++ truncAnsiGo maxVis (takeEsc rest).2 vis)
    else if maxVis ≤ vis then []
    else c :: truncAnsiGo maxVis rest (vis + 1)
termination_by s.length
decreasing_by
  · simp only [List.length_cons]
    exact Nat.lt_succ_of_le (takeEsc_len _)
  · simp only [List.length_cons]
    omega

/-- `truncAnsi(s, maxVis)` from the TUI module. -/
def truncAnsi (s : List Char) (maxVis : Nat) : List Char := truncAnsiGo maxVis s 0

/-- The number of characters of `s` that `truncAnsi`'s scanner treats as
visible (everything outside the escape sequences it skips). -/
def visCount (s : List Char) : Nat :=
  match s with
  | [] => 0
  | c :: rest => if c = '\x1b' then visCount (takeEsc rest).2 else 1 + visCount rest
termination_by s.length
decreasing_by
  · simp only [List.length_cons]
    exact Nat.lt_succ_of_le (takeEsc_len _)
  · simp only [List.length_cons]
    omega

/-- `WRAP_GUARD_COLS` from the TUI module. -/
def WRAP_GUARD_COLS : Nat := 1

/-- `fullWidthLine(content, lastLine)`: truncate to
`maxW = Math.max(0, cols - guard)` and pad with spaces to `maxW`
(`Nat` subtraction is the `Math.max(0, ...)` clamp). -/
def fullWidthLine (cols : Nat) (lastLine : Bool) (content : List Char) : List Char :=
  let guard := if lastLine then max 1 WRAP_GUARD_COLS else WRAP_GUARD_COLS
  let maxW := cols - guard
  let truncated := truncAnsi content maxW
  truncated ++ List.replicate (maxW - visLen truncated) ' '

/-! ### Step equations for the scanners -/

theorem stripAnsi_nil : stripAnsi [] = [] := by
  rw [stripAnsi.eq_def]

theorem stripAnsi_cons_vis (c : Char) (rest : List Char) (h : c ≠ '\x1b') :
    stripAnsi (c :: rest) = c :: stripAnsi rest := by
  rw [stripAnsi.eq_def]
  simp [h]

theorem stripAnsi_esc_nil : stripAnsi ['\x1b'] = ['\x1b'] := by
  rw [stripAnsi.eq_def]
  simp

theorem stripAnsi_esc_nobr (c2 : Char) (rest2 : List Char) (h : c2 ≠ '[') :
    stripAnsi ('\x1b' :: c2 :: rest2) = '\x1b' :: stripAnsi (c2 :: rest2) := by
  rw [stripAnsi.eq_def]
  simp [h]

theorem stripAnsi_esc_sgr (rest2 rest3 : List Char)
    (hd : rest2.dropWhile isCsiParamChar = 'm' :: rest3) :
    stripAnsi ('\x1b' :: '[' :: rest2) = stripAnsi rest3 := by
  rw [stripAnsi.eq_def]
  simp only [reduceIte]
  split
  · rename_i c3 rest3' heq
    rw [hd] at heq
    injection heq with h1 h2
    subst h1
    subst h2
    rfl
  · rename_i heq
    rw [hd] at heq
    cases heq

theorem stripAnsi_esc_br_nom (rest2 : List Char) (c3 : Char) (rest3 : List Char)
    (hd : rest2.dropWhile isCsiParamChar = c3 :: rest3) (h : c3 ≠ 'm') :
    stripAnsi ('\x1b' :: '[' :: rest2) = '\x1b' :: stripAnsi ('[' :: rest2) := by
  rw [stripAnsi.eq_def]
  simp only [reduceIte]
  split
  · rename_i c3' rest3' heq
    rw [hd] at heq
    injection heq with h1 h2
    subst h1
    simp [h]
  · rename_i heq
    simp [hd] at heq

theorem stripAnsi_esc_br_none (rest2 : List Char)
    (hd : rest2.dropWhile isCsiParamChar = []) :
    stripAnsi ('\x1b' :: '[' :: rest2) = '\x1b' :: stripAnsi ('[' :: rest2) := by
  rw [stripAnsi.eq_def]
  simp only [reduceIte]
  split
  · rename_i c3' rest3' heq
    rw [hd] at heq
    cases heq
  · rfl

theorem takeEsc_nobr (c : Char) (rest2 : List Char) (h : c ≠ '[') :
    takeEsc (c :: rest2) = ([], c :: rest2) := by
  rw [takeEsc]
  simp [h]

theorem takeEsc_br_some (rest2 : List Char) (f : Char) (rest3 : List Char)
    (hd : rest2.dropWhile isTruncParamByte = f :: rest3) :
    takeEsc ('[' :: rest2) =
      ('[' :: (rest2.takeWhile isTruncParamByte ++ [f]), rest3) := by
  rw [takeEsc]
  simp [hd]

theorem takeEsc_br_none (rest2 : List Char)
    (hd : rest2.dropWhile isTruncParamByte = []) :
    takeEsc ('[' :: rest2) = ('[' :: rest2.takeWhile isTruncParamByte, []) := by
  rw [takeEsc]
  simp [hd]

theorem truncAnsiGo_nil (maxVis vis : Nat) : truncAnsiGo maxVis [] vis = [] := by
  rw [truncAnsiGo]

theorem truncAnsiGo_esc (maxVis : Nat) (rest : List Char) (vis : Nat) :
    truncAnsiGo maxVis ('\x1b' :: rest) vis =
      '\x1b' :: ((takeEsc rest).1 ++ truncAnsiGo maxVis (takeEsc rest).2 vis) := by
  rw [truncAnsiGo]
  simp

theorem truncAnsiGo_vis (maxVis : Nat) (c : Char) (rest : List Char) (vis : Nat)
    (h : c ≠ '\x1b') :
    truncAnsiGo maxVis (c :: rest) vis =
      if maxVis ≤ vis then [] else c :: truncAnsiGo maxVis rest (vis + 1) := by
  rw [truncAnsiGo]
  simp [h]

theorem visCount_nil : visCount [] = 0 := by rw [visCount]

theorem visCount_esc (rest : List Char) :
    visCount ('\x1b' :: rest) = visCount (takeEsc rest).2 := by
  rw [visCount]
  simp

theorem visCount_vis (c : Char) (rest : List Char) (h : c ≠ '\x1b') :
    visCount (c :: rest) = 1 + visCount rest := by
  rw [visCount]
  simp [h]

/-! ### `takeWhile`/`dropWhile` support -/

theorem dropWhile_append_of_all (p : Char → Bool) :
    ∀ (params : List Char), (∀ a ∈ params, p a = true) →
      ∀ (x : List Char), (params ++ x).dropWhile p = x.dropWhile p
  | [], _, x => rfl
  | a :: rest, hall, x => by
    have ha : p a = true := hall a (List.mem_cons_self a rest)
    rw [List.cons_append, List.dropWhile_cons, if_pos ha]
    exact dropWhile_append_of_all p rest (fun b hb => hall b (List.mem_cons_of_mem a hb)) x

theorem dropWhile_append_head_false (p : Char → Bool) (params : List Char)
    (hall : ∀ a ∈ params, p a = true) (f : Char) (hf : p f = false) (x : List Char) :
    (params ++ f :: x).dropWhile p = f :: x := by
  rw [dropWhile_append_of_all p params hall, List.dropWhile_cons, if_neg (by simp [hf])]

theorem dropWhile_eq_cons_head_false {p : Char → Bool} {l : List Char} {c : Char}
    {t : List Char} (h : l.dropWhile p = c :: t) : p c = false := by
  have := List.head?_dropWhile_not p l
  rw [h] at this
  simpa using this

theorem takeWhile_eq_self_of_dropWhile_nil {p : Char → Bool} {l : List Char}
    (h : l.dropWhile p = []) : l.takeWhile p = l := by
  have := List.takeWhile_append_dropWhile p l
  rw [h, List.append_nil] at this
  exact this

theorem all_of_dropWhile_nil {p : Char → Bool} {l : List Char}
    (h : l.dropWhile p = []) : ∀ a ∈ l, p a = true := by
  intro a ha
  rw [← takeWhile_eq_self_of_dropWhile_nil h] at ha
  exact List.mem_takeWhile_imp ha

/-! ### Re-scanning a copied escape chunk -/

/-- Scanning `ESC` followed by the chunk `takeEsc` consumed and then any
continuation `x` that is either empty (when the chunk ran to the end of
the input) or starts like the remaining input, counts exactly the visible
characters of `x`. -/
theorem visCount_esc_chunk (rest x : List Char)
    (hx1 : (takeEsc rest).2 = [] → x = [])
    (hx2 : x ≠ [] → x.head? = (takeEsc rest).2.head?) :
    visCount ('\x1b' :: ((takeEsc rest).1 ++ x)) = visCount x := by
  match rest with
  | [] =>
    have hxnil : x = [] := hx1 rfl
    subst hxnil
    rw [visCount_esc, takeEsc]
    rfl
  | c :: rest2 =>
    by_cases hc : c = '['
    · subst hc
      cases hd : rest2.dropWhile isTruncParamByte with
      | nil =>
        have hxnil : x = [] := hx1 (by rw [takeEsc_br_none rest2 hd])
        subst hxnil
        rw [takeEsc_br_none rest2 hd]
        simp only [List.append_nil]
        rw [visCount_esc]
        have htw := takeWhile_eq_self_of_dropWhile_nil hd
        rw [takeEsc_br_none (rest2.takeWhile isTruncParamByte)
          (by rw [htw]; exact hd)]
      | cons f rest3 =>
        rw [takeEsc_br_some rest2 f rest3 hd]
        simp only [List.cons_append, List.append_assoc, List.singleton_append,
          List.nil_append]
        rw [visCount_esc]
        have hf : isTruncParamByte f = false := dropWhile_eq_cons_head_false hd
        rw [takeEsc_br_some (rest2.takeWhile isTruncParamByte ++ f :: x) f x
          (dropWhile_append_head_false isTruncParamByte _
            (fun a ha => List.mem_takeWhile_imp ha) f hf x)]
    · rw [takeEsc_nobr c rest2 hc]
      simp only [List.nil_append]
      cases hx : x with
      | nil =>
        rw [visCount_esc]
        rfl
      | cons y x2 =>
        have hy : y = c := by
          have := hx2 (by rw [hx]; exact List.cons_ne_nil y x2)
          rw [hx, takeEsc_nobr c rest2 hc] at this
          simpa using this
        subst hy
        rw [visCount_esc, takeEsc_nobr y x2 (by simpa using hc)]

/-! ### The three core facts about `truncAnsi` -/

theorem truncAnsiGo_spec (maxVis : Nat) :
    ∀ (n : Nat) (s : List Char), s.length ≤ n → ∀ (vis : Nat),
      (∃ t, truncAnsiGo maxVis s vis ++ t = s) ∧
      (truncAnsiGo maxVis s vis ≠ [] → (truncAnsiGo maxVis s vis).head? = s.head?) ∧
      visCount (truncAnsiGo maxVis s vis) ≤ maxVis - vis := by
  intro n
  induction n with
  | zero =>
    intro s hlen vis
    have hs : s = [] := List.length_eq_zero.mp (Nat.le_zero.mp hlen)
    subst hs
    rw [truncAnsiGo_nil]
    exact ⟨⟨[], rfl⟩, fun h => absurd rfl h, by rw [visCount_nil]; omega⟩
  | succ n ih =>
    intro s hlen vis
    match s with
    | [] =>
      rw [truncAnsiGo_nil]
      exact ⟨⟨[], rfl⟩, fun h => absurd rfl h, by rw [visCount_nil]; omega⟩
    | c :: rest =>
      by_cases hc : c = '\x1b'
      · subst hc
        rw [truncAnsiGo_esc]
        have hlen2 : (takeEsc rest).2.length ≤ n := by
          have h1 := takeEsc_len rest
          simp only [List.length_cons] at hlen
          omega
        obtain ⟨⟨t, ht⟩, hhead, hcount⟩ := ih (takeEsc rest).2 hlen2 vis
        refine ⟨⟨t, ?_⟩, fun _ => rfl, ?_⟩
        · simp only [List.cons_append, List.append_assoc]
          rw [ht, takeEsc_append]
        · rw [visCount_esc_chunk rest (truncAnsiGo maxVis (takeEsc rest).2 vis)
            (fun h2 => by rw [h2, truncAnsiGo_nil]) hhead]
          exact hcount
      · rw [truncAnsiGo_vis maxVis c rest vis hc]
        by_cases hv : maxVis ≤ vis
        · rw [if_pos hv]
          exact ⟨⟨c :: rest, rfl⟩, fun h => absurd rfl h, by rw [visCount_nil]; omega⟩
        · rw [if_neg hv]
          have hlen2 : rest.length ≤ n := by
            simp only [List.length_cons] at hlen
            omega
          obtain ⟨⟨t, ht⟩, _, hcount⟩ := ih rest hlen2 (vis + 1)
          refine ⟨⟨t, by simp [ht]⟩, fun _ => rfl, ?_⟩
          rw [visCount_vis c _ hc]
          omega

/-- `truncAnsi` copies a prefix of its input verbatim. -/
theorem truncAnsi_front (s : List Char) (maxVis : Nat) :
    ∃ t, truncAnsi s maxVis ++ t = s :=
  (truncAnsiGo_spec maxVis s.length s (le_refl _) 0).1

/-- `truncAnsi` emits at most `maxVis` visible characters; escape bytes
are not counted against the budget. -/
theorem truncAnsi_visCount (s : List Char) (maxVis : Nat) :
    visCount (truncAnsi s maxVis) ≤ maxVis := by
  have h := (truncAnsiGo_spec maxVis s.length s (le_refl _) 0).2.2
  simpa using h

/-! ### Escape-free content -/

theorem truncAnsiGo_no_esc (maxVis : Nat) :
    ∀ (s : List Char), (∀ c ∈ s, c ≠ '\x1b') → ∀ vis,
      truncAnsiGo maxVis s vis = s.take (maxVis - vis)
  | [], _, vis => by rw [truncAnsiGo_nil, List.take_nil]
  | c :: rest, h, vis => by
    have hc : c ≠ '\x1b' := h c (List.mem_cons_self c rest)
    rw [truncAnsiGo_vis maxVis c rest vis hc]
    by_cases hv : maxVis ≤ vis
    · rw [if_pos hv]
      have : maxVis - vis = 0 := by omega
      rw [this, List.take_zero]
    · rw [if_neg hv]
      rw [truncAnsiGo_no_esc maxVis rest
        (fun a ha => h a (List.mem_cons_of_mem c ha)) (vis + 1)]
      have : maxVis - vis = (maxVis - (vis + 1)) + 1 := by omega
      rw [this, List.take_succ_cons]

theorem stripAnsi_no_esc : ∀ (s : List Char), (∀ c ∈ s, c ≠ '\x1b') → stripAnsi s = s
  | [], _ => stripAnsi_nil
  | c :: rest, h => by
    rw [stripAnsi_cons_vis c rest (h c (List.mem_cons_self c rest))]
    rw [stripAnsi_no_esc rest (fun a ha => h a (List.mem_cons_of_mem c ha))]

/-! ### Appending pad spaces -/

theorem dropWhile_append_of_ne_nil (p : Char → Bool) :
    ∀ (l : List Char), l.dropWhile p ≠ [] →
      ∀ u, (l ++ u).dropWhile p = l.dropWhile p ++ u
  | [], h, u => absurd rfl h
  | a :: l2, h, u => by
    rw [List.cons_append, List.dropWhile_cons]
    by_cases ha : p a
    · rw [List.dropWhile_cons, if_pos ha] at h
      rw [if_pos ha, dropWhile_append_of_ne_nil p l2 h u, List.dropWhile_cons, if_pos ha]
    · rw [if_neg ha, List.dropWhile_cons, if_neg ha, List.cons_append]

theorem stripAnsi_append_spaces :
    ∀ (n : Nat) (t : List Char), t.length ≤ n → ∀ (k : Nat),
      stripAnsi (t ++ List.replicate k ' ') = stripAnsi t ++ List.replicate k ' ' := by
  intro n
  induction n with
  | zero =>
    intro t hlen k
    have ht : t = [] := List.length_eq_zero.mp (Nat.le_zero.mp hlen)
    subst ht
    simp only [List.nil_append]
    rw [stripAnsi_no_esc (List.replicate k ' ')
      (by intro c hc; rw [List.eq_of_mem_replicate hc]; decide)]
    rw [stripAnsi_nil, List.nil_append]
  | succ n ih =>
    intro t hlen k
    match t with
    | [] =>
      simp only [List.nil_append]
      rw [stripAnsi_no_esc (List.replicate k ' ')
        (by intro c hc; rw [List.eq_of_mem_replicate hc]; decide)]
      rw [stripAnsi_nil, List.nil_append]
    | c :: rest =>
      simp only [List.length_cons] at hlen
      by_cases hc : c = '\x1b'
      · subst hc
        match rest with
        | [] =>
          cases k with
          | zero => simp
          | succ k2 =>
            rw [List.replicate_succ]
            simp only [List.cons_append, List.nil_append]
            rw [stripAnsi_esc_nobr ' ' _ (by decide)]
            rw [stripAnsi_no_esc (' ' :: List.replicate k2 ' ')
              (by
                intro a ha
                rcases List.mem_cons.mp ha with h1 | h1
                · rw [h1]; decide
                · rw [List.eq_of_mem_replicate h1]; decide)]
            rw [stripAnsi_esc_nil]
            rfl
        | c2 :: rest2 =>
          simp only [List.length_cons] at hlen
          by_cases hbr : c2 = '['
          · subst hbr
            cases hd : rest2.dropWhile isCsiParamChar with
            | cons c3 rest3 =>
              have hd2 : (rest2 ++ List.replicate k ' ').dropWhile isCsiParamChar =
                  c3 :: (rest3 ++ List.replicate k ' ') := by
                rw [dropWhile_append_of_ne_nil isCsiParamChar rest2 (by rw [hd]; simp), hd]
                rfl
              by_cases hm : c3 = 'm'
              · subst hm
                rw [List.cons_append, List.cons_append,
                  stripAnsi_esc_sgr _ _ hd2, stripAnsi_esc_sgr _ _ hd]
                have hr3 : rest3.length ≤ n := by
                  have h1 := dropWhile_len_le isCsiParamChar rest2
                  rw [hd] at h1
                  simp only [List.length_cons] at h1
                  omega
                exact ih rest3 hr3 k
              · rw [List.cons_append, List.cons_append,
                  stripAnsi_esc_br_nom _ _ _ hd2 hm, stripAnsi_esc_br_nom _ _ _ hd hm]
                have hr : ('[' :: rest2).length ≤ n := by
                  simp only [List.length_cons]
                  omega
                have := ih ('[' :: rest2) hr k
                rw [List.cons_append] at this
                rw [this]
                rfl
            | nil =>
              have htw := takeWhile_eq_self_of_dropWhile_nil hd
              have hall := all_of_dropWhile_nil hd
              cases k with
              | zero => simp
              | succ k2 =>
                have hd2 : (rest2 ++ List.replicate (k2 + 1) ' ').dropWhile isCsiParamChar =
                    ' ' :: List.replicate k2 ' ' := by
                  rw [dropWhile_append_of_all isCsiParamChar rest2 hall,
                    List.replicate_succ, List.dropWhile_cons, if_neg (by decide)]
                rw [List.cons_append, List.cons_append,
                  stripAnsi_esc_br_nom _ _ _ hd2 (by decide), stripAnsi_esc_br_none _ hd]
                have hr : ('[' :: rest2).length ≤ n := by
                  simp only [List.length_cons]
                  omega
                have := ih ('[' :: rest2) hr (k2 + 1)
                rw [List.cons_append] at this
                rw [this]
                rfl
          · rw [List.cons_append, List.cons_append, stripAnsi_esc_nobr _ _ hbr,
              stripAnsi_esc_nobr _ _ hbr]
            have hr : (c2 :: rest2).length ≤ n := by
              simp only [List.length_cons]
              omega
            have := ih (c2 :: rest2) hr k
            rw [List.cons_append] at this
            rw [this]
            rfl
      · rw [List.cons_append, stripAnsi_cons_vis _ _ hc, stripAnsi_cons_vis _ _ hc]
        rw [ih rest (by omega) k]
        rfl

theorem visLen_append_spaces (t : List Char) (k : Nat) :
    visLen (t ++ List.replicate k ' ') = visLen t + k := by
  have hsp : ∀ a ∈ List.replicate k ' ', isAsciiCode a = true := by
    intro a ha
    rw [List.eq_of_mem_replicate ha]
    decide
  simp only [visLen]
  rw [stripAnsi_append_spaces t.length t (le_refl _) k]
  by_cases hall : (stripAnsi t).all isAsciiCode
  · have hall2 : (stripAnsi t ++ List.replicate k ' ').all isAsciiCode = true := by
      rw [List.all_append, hall, Bool.true_and]
      exact List.all_eq_true.mpr hsp
    rw [if_pos hall2, if_pos hall, List.length_append, List.length_replicate]
  · have hall2 : ¬(stripAnsi t ++ List.replicate k ' ').all isAsciiCode = true := by
      intro hcon
      rw [List.all_append, Bool.and_eq_true] at hcon
      exact hall hcon.1
    rw [if_neg hall2, if_neg hall, List.map_append, List.sum_append, List.map_replicate]
    have hw : charWidth ' ' = 1 := by decide
    rw [hw]
    simp

theorem fullWidthLine_visLen (cols : Nat) (lastLine : Bool) (content : List Char) :
    visLen (fullWidthLine cols lastLine content) =
      max (cols - (if lastLine then max 1 WRAP_GUARD_COLS else WRAP_GUARD_COLS))
        (visLen (truncAnsi content
          (cols - (if lastLine then max 1 WRAP_GUARD_COLS else WRAP_GUARD_COLS)))) := by
  simp only [fullWidthLine]
  rw [visLen_append_spaces]
  omega

/-! ## Claim theorems C10, plus the double-width counterexample -/

/-- C10 counterexample: `truncAnsi` counts every visible character as one
column, so the double-width glyph `⚡` (U+26A1, inside the `2600–26FF`
range of `EMOJI_RE`, hence `visLen` 2) passes a budget of 1 untrimmed:
the emitted text measures 2 columns where double-width glyphs count as 2,
exceeding the budget — and the corresponding `fullWidthLine` row (columns
2, guard 1, budget 1) has visible width 2, not the budget 1. -/
theorem C10_width_budget_cex :
    truncAnsi ['⚡'] 1 = ['⚡'] ∧
    visLen ['⚡'] = 2 ∧
    (2 : Nat) - WRAP_GUARD_COLS = 1 ∧
    visLen (fullWidthLine 2 false ['⚡']) = 2 := by
  have h1 : truncAnsi ['⚡'] 1 = ['⚡'] := by
    rw [truncAnsi, truncAnsiGo_vis 1 '⚡' [] 0 (by decide), if_neg (by omega),
      truncAnsiGo_nil]
  have h2 : visLen ['⚡'] = 2 := by
    simp only [visLen]
    rw [stripAnsi_cons_vis '⚡' [] (by decide), stripAnsi_nil]
    rw [if_neg (by decide)]
    decide
  refine ⟨h1, h2, by decide, ?_⟩
  simp only [fullWidthLine, Bool.false_eq_true, if_false]
  have hside : (2 : Nat) - WRAP_GUARD_COLS = 1 := by decide
  rw [hside, h1, h2]
  rw [visLen_append_spaces]
  rw [h2]

/-- C10 (amended): for every input and every column budget, `truncAnsi`
copies a prefix of the input verbatim and emits at most the budget counted
in visible characters — ANSI escape sequences are copied without counting
against the budget, but each visible character counts as one column, so a
double-width glyph can push the true column width beyond the budget; every
row produced by `fullWidthLine` has visible width
`max(budget, width of the truncated content)` — exactly the full column
budget whenever the truncated content fits it, in particular for ASCII
content free of escape bytes. -/
theorem C10_trunc_and_padding :
    (∀ (s : List Char) (maxVis : Nat), ∃ t, truncAnsi s maxVis ++ t = s) ∧
    (∀ (s : List Char) (maxVis : Nat), visCount (truncAnsi s maxVis) ≤ maxVis) ∧
    (∀ (cols : Nat) (lastLine : Bool) (content : List Char),
      visLen (fullWidthLine cols lastLine content) =
        max (cols - (if lastLine then max 1 WRAP_GUARD_COLS else WRAP_GUARD_COLS))
          (visLen (truncAnsi content
            (cols - (if lastLine then max 1 WRAP_GUARD_COLS else WRAP_GUARD_COLS))))) ∧
    (∀ (cols : Nat) (lastLine : Bool) (content : List Char),
      (∀ c ∈ content, isAsciiCode c = true ∧ c ≠ '\x1b') →
      visLen (fullWidthLine cols lastLine content) =
        cols - (if lastLine then max 1 WRAP_GUARD_COLS else WRAP_GUARD_COLS)) := by
  refine ⟨truncAnsi_front, truncAnsi_visCount, fullWidthLine_visLen, ?_⟩
  intro cols lastLine content hplain
  rw [fullWidthLine_visLen]
  set maxW := cols - (if lastLine then max 1 WRAP_GUARD_COLS else WRAP_GUARD_COLS) with hW
  have htake : truncAnsi content maxW = content.take maxW := by
    rw [truncAnsi, truncAnsiGo_no_esc maxW content (fun c hc => (hplain c hc).2) 0]
    simp
  have hvl : visLen (content.take maxW) = (content.take maxW).length := by
    simp only [visLen]
    rw [stripAnsi_no_esc (content.take maxW)
      (fun c hc => (hplain c (List.take_subset maxW content hc)).2)]
    rw [if_pos (List.all_eq_true.mpr
      (fun c hc => (hplain c (List.take_subset maxW content hc)).1))]
  rw [htake, hvl, List.length_take]
  omega

theorem C10_trunc_and_padding_witness :
    (∀ c ∈ ['o', 'k'], isAsciiCode c = true ∧ c ≠ '\x1b') ∧
    visLen (fullWidthLine 10 false ['o', 'k']) =
      10 - (if false then max 1 WRAP_GUARD_COLS else WRAP_GUARD_COLS) :=
  ⟨by decide, C10_trunc_and_padding.2.2.2 10 false ['o', 'k'] (by decide)⟩

end FRouter



